import Mathlib

/-!
Verification development for the unitig-flipper core
(src/src/dbg.rs, src/src/lib.rs, src/src/main.rs).

The Rust code is embedded shallowly:
* DNA bytes over {A,C,G,T} become the inductive type `Base`; sequences are
  `List Base`.
* The doubled de-Bruijn-graph structure `DBG` of dbg.rs is embedded with
  `Vec<Vec<usize>>` as `List (List Nat)`, with `List.getD`/`List.set` for
  indexed reads and writes.
* The `HashMap` of border (k-1)-mers is only ever queried by key (it is never
  iterated), so it is embedded as the lookup function `borders`, which returns
  for a key the list of occurrences in the map's insertion order (ids
  ascending, the Start entry of an id before its End entry).
* Rust panics (out-of-range slices in `DBG::build` for sequences shorter than
  k-1, and `% 0` in `twin` when `n_unitigs = 0`) are modelled by `Option`
  results where a claim depends on them; loops whose indices are in range in
  every reachable call are embedded with `getD`/`set` (which are total).
-/

namespace UnitigFlipper

/-- Nucleotide alphabet. The Rust code works on ASCII bytes but aborts on any
byte outside ACGT while reverse-complementing, so the valid alphabet is
embedded as an enumeration. -/
inductive Base
  | A
  | C
  | G
  | T
deriving DecidableEq, Repr

/-- Watson-Crick complement of one base (jseqio's complement table). -/
def Base.complement : Base → Base
  | .A => .T
  | .C => .G
  | .G => .C
  | .T => .A

/-- Reverse complement of a sequence (jseqio's `reverse_complement`). -/
def reverseComplement (s : List Base) : List Base :=
  (s.reverse).map Base.complement

/-- Orientation of a unitig, from dbg.rs. -/
inductive Orientation
  | Forward
  | Reverse
deriving DecidableEq, Repr

/-- Orientation flip (main.rs has it on `Orientation`; lib.rs on `Direction`). -/
def Orientation.flip : Orientation → Orientation
  | .Forward => .Reverse
  | .Reverse => .Forward

/-- Direction of a non-switching BFS, from lib.rs. -/
inductive Direction
  | Forward
  | Backward
deriving DecidableEq, Repr

/-- Direction flip, from lib.rs. -/
def Direction.flip : Direction → Direction
  | .Forward => .Backward
  | .Backward => .Forward

/-- Position marker used while building the border map, from dbg.rs. -/
inductive Position
  | Start
  | End
deriving DecidableEq, Repr

/-- Value stored in the border map, from dbg.rs (`MapValue`). -/
structure MapValue where
  unitig_id : Nat
  position : Position
deriving DecidableEq, Repr

/-- The doubled-representation graph of dbg.rs: `2 * n_unitigs` nodes, nodes
`0..n-1` are the input orientations and `n..2n-1` their reverse complements.
`unitig_db` holds the input sequences (the `SeqDB` field). -/
structure DBG where
  out_edges : List (List Nat)
  in_edges : List (List Nat)
  n_unitigs : Nat
  unitig_db : List (List Base)
deriving DecidableEq, Repr

/-- Fresh graph with `2 * n_unitigs` empty adjacency lists (`DBG::new`). -/
def DBG.new (n_unitigs : Nat) : DBG :=
  { out_edges := List.replicate (n_unitigs * 2) []
    in_edges := List.replicate (n_unitigs * 2) []
    n_unitigs := n_unitigs
    unitig_db := [] }

/-- Reverse-complement twin of a node over `n` unitigs: `(v + n) % (2 n)`. -/
def twinN (n v : Nat) : Nat :=
  (v + n) % (2 * n)

/-- Reverse-complement twin of a node: `(v + n) % (2 n)` (`DBG::twin`).
For `n_unitigs = 0` the Rust expression divides by zero and panics; this total
version uses Lean's `% 0` convention and is only applied by the algorithms when
`n_unitigs ≥ 1`. See `twinChecked` for the panic-aware version. -/
def DBG.twin (g : DBG) (v : Nat) : Nat :=
  twinN g.n_unitigs v

/-- Panic-aware version of `DBG.twin`: Rust's `%` panics when the divisor
`2 * n_unitigs` is zero, so the result is `none` exactly there. -/
def DBG.twinChecked (g : DBG) (v : Nat) : Option Nat :=
  if 2 * g.n_unitigs = 0 then none else some ((v + g.n_unitigs) % (2 * g.n_unitigs))

/-- Insert a directed edge between doubled nodes (`DBG::add_edge`): the
from-node is offset by `n_unitigs` when its orientation is `Reverse`, likewise
the to-node. -/
def DBG.add_edge (g : DBG) (from_node to_node : Nat)
    (from_orientation to_orientation : Orientation) : DBG :=
  let v := from_node + (if from_orientation = Orientation.Reverse then 1 else 0) * g.n_unitigs
  let u := to_node + (if to_orientation = Orientation.Reverse then 1 else 0) * g.n_unitigs
  { g with
    out_edges := g.out_edges.set v (g.out_edges.getD v [] ++ [u])
    in_edges := g.in_edges.set u (g.in_edges.getD u [] ++ [v]) }

/-- Forward prefix boundary of a sequence: `&seq[..k-1]`. -/
def firstK (k : Nat) (s : List Base) : List Base := s.take (k - 1)

/-- Forward suffix boundary of a sequence: `&seq[seq.len()-(k-1)..]`. -/
def lastK (k : Nat) (s : List Base) : List Base := s.drop (s.length - (k - 1))

/-- Occurrence list of a border key over the given ids, in the insertion order
of the Rust `HashMap` bucket lists: ids ascending, `Start` before `End`. -/
def bordersFrom (seqs : List (List Base)) (k : Nat) (key : List Base) :
    List Nat → List MapValue
  | [] => []
  | j :: rest =>
      ((if firstK k (seqs.getD j []) = key then [⟨j, Position.Start⟩] else []) ++
        (if lastK k (seqs.getD j []) = key then [⟨j, Position.End⟩] else [])) ++
        bordersFrom seqs k key rest

/-- The border map of `DBG::build` as a lookup function: the map is populated
by one pass over all ids (pushing `(i, Start)` under the forward prefix and
`(i, End)` under the forward suffix) and afterwards only read, so it is
embedded as the per-key occurrence list. -/
def borders (seqs : List (List Base)) (k : Nat) (key : List Base) : List MapValue :=
  bordersFrom seqs k key (List.range seqs.length)

/-- One of the four per-sequence edge loops of `DBG::build`: walk an occurrence
list and add an edge for every occurrence carrying the wanted position mark. -/
def ruleLoop (i : Nat) (from_orientation to_orientation : Orientation)
    (keep : Position) : List MapValue → DBG → DBG
  | [], g => g
  | mv :: rest, g =>
      ruleLoop i from_orientation to_orientation keep rest
        (if mv.position = keep then
          g.add_edge i mv.unitig_id from_orientation to_orientation
        else g)

/-- Body of the edge-building loop of `DBG::build` for one sequence id `i`:
the four lookups and their orientation tags, in source order. -/
def buildStep (seqs : List (List Base)) (k : Nat) (g : DBG) (i : Nat) : DBG :=
  let s := seqs.getD i []
  let s_rc := reverseComplement s
  let first := firstK k s
  let last := lastK k s
  let first_rc := lastK k s_rc
  let last_rc := firstK k s_rc
  let g1 := ruleLoop i Orientation.Forward Orientation.Forward Position.Start
    (borders seqs k last) g
  let g2 := ruleLoop i Orientation.Forward Orientation.Reverse Position.End
    (borders seqs k last_rc) g1
  let g3 := ruleLoop i Orientation.Reverse Orientation.Forward Position.Start
    (borders seqs k first_rc) g2
  ruleLoop i Orientation.Reverse Orientation.Reverse Position.End
    (borders seqs k first) g3

/-- The edge-building loop of `DBG::build` over all ids. -/
def buildLoop (seqs : List (List Base)) (k : Nat) : List Nat → DBG → DBG
  | [], g => g
  | i :: rest, g => buildLoop seqs k rest (buildStep seqs k g i)

/-- `DBG::build` under the precondition that every slice is in range: build the
borders, add all edges, store the sequence database. -/
def buildTotal (seqs : List (List Base)) (k : Nat) : DBG :=
  let g := buildLoop seqs k (List.range seqs.length) (DBG.new seqs.length)
  { g with unitig_db := seqs }

/-- In-range condition for the two boundary slices of one sequence: Rust
computes `k - 1` in `usize` (panicking for `k = 0`) and `&seq[..k-1]`,
`&seq[len-(k-1)..]` (panicking when `len < k - 1`). -/
def seqOk (k : Nat) (s : List Base) : Bool :=
  decide (1 ≤ k) && decide (k - 1 ≤ s.length)

/-- The border-map construction pass of `DBG::build` with its panics made
explicit: the pass slices every sequence, so it aborts (returns `none`) as soon
as some sequence is shorter than `k - 1` (or `k = 0` underflows). No length
check precedes this pass anywhere in the code, and the panic carries no
sequence id and no value of `k` in the embedded result. -/
def buildBordersChecked (seqs : List (List Base)) (k : Nat) :
    Option (List Base → List MapValue) :=
  if seqs.all (seqOk k) then some (borders seqs k) else none

/-- `DBG::build` with its slice panics modelled: `none` exactly when the
border pass aborts, otherwise the graph of `buildTotal`. -/
def DBG.build (seqs : List (List Base)) (k : Nat) : Option DBG :=
  match buildBordersChecked seqs k with
  | none => none
  | some _ => some (buildTotal seqs k)

/-- Number of still-unvisited entries of a visited array. Used as the
termination measure of the breadth-first searches. -/
def countFalse (l : List Bool) : Nat := l.countP (fun b => !b)

/-- Orientation committed by the non-switching BFS of lib.rs when node `v` of
the doubled graph is dequeued while walking in direction `dir`. -/
def bfsOrient (n : Nat) (dir : Direction) (v : Nat) : Orientation :=
  match dir, decide (v < n) with
  | Direction.Forward, true => Orientation.Forward
  | Direction.Forward, false => Orientation.Reverse
  | Direction.Backward, true => Orientation.Reverse
  | Direction.Backward, false => Orientation.Forward

/-- Total length of all adjacency lists; used to bound the number of queue
pushes a BFS can perform. -/
def outTotalLen : List (List Nat) → Nat
  | [] => 0
  | l :: rest => l.length + outTotalLen rest

/-- Queue loop of lib.rs's `bfs`: pop a node, skip it if its unitig is
visited, otherwise mark it, record its orientation, and push its successors.
The Rust function receives the whole `&DBG` but reads only `out_edges` and
`n_unitigs`, which are the two parameters here (see the wrapper `bfs`).
The `while let` loop is embedded with explicit fuel so that the function is
structurally recursive and computable; `bfsLoop_completes` proves that the
fuel `stdFuel` handed to it by `bfs` is always sufficient, which is the
termination of the Rust loop. Rust indexes `visited[v % n]`, which is always
in range in every reachable call (the array has length `n_unitigs ≥ 1`
there); an out-of-range index would panic, modelled by stopping with the
current state. -/
def bfsLoop (outE : List (List Nat)) (n : Nat) (dir : Direction) :
    Nat → List Nat → List Orientation → List Bool →
      Option (List Orientation × List Bool)
  | 0, _, _, _ => none
  | _ + 1, [], oris, visited => some (oris, visited)
  | fuel + 1, v :: queue, oris, visited =>
    if v % n < visited.length then
      if visited.getD (v % n) false then bfsLoop outE n dir fuel queue oris visited
      else
        bfsLoop outE n dir fuel (queue ++ outE.getD v [])
          (oris.set (v % n) (bfsOrient n dir v))
          (visited.set (v % n) true)
    else some (oris, visited)

/-- Sufficient fuel for `bfsLoop` on a queue of the given length: every
unvisited unitig can be committed at most once, and only commits push. -/
def stdFuel (outE : List (List Nat)) (visited : List Bool) (qlen : Nat) : Nat :=
  countFalse visited * (outTotalLen outE + 1) + qlen + 1

/-- lib.rs `bfs`: non-switching BFS from a root; walking backward is walking
forward from the reverse-complement twin of the root. The `getD` never takes
its fallback by `bfsLoop_completes`. -/
def bfs (root : Nat) (dir : Direction) (oris : List Orientation)
    (visited : List Bool) (outE : List (List Nat)) (n : Nat) :
    List Orientation × List Bool :=
  let root := if dir = Direction.Backward then twinN n root else root
  (bfsLoop outE n dir (stdFuel outE visited 1) [root] oris visited).getD
    (oris, visited)

/-- Body of the root loop of `pick_orientations_with_non_switching_bfs`: for an
unvisited root, BFS forward, clear the root's visited flag, and BFS backward
(which visits the root again, per the source comment). -/
def pickStep (outE : List (List Nat)) (n : Nat)
    (st : List Orientation × List Bool) (v : Nat) :
    List Orientation × List Bool :=
  if st.2.getD v false then st
  else
    let r1 := bfs v Direction.Forward st.1 st.2 outE n
    bfs v Direction.Backward r1.1 (r1.2.set v false) outE n

/-- Root loop of `pick_orientations_with_non_switching_bfs` over a list of
candidate roots. -/
def pickLoop (outE : List (List Nat)) (n : Nat) :
    List Nat → List Orientation × List Bool → List Orientation × List Bool
  | [], st => st
  | v :: rest, st => pickLoop outE n rest (pickStep outE n st v)

/-- Core of `pick_orientations_with_non_switching_bfs` over the two fields of
the graph that the function reads: all orientations start `Forward`, all ids
unvisited, roots are tried in ascending order. -/
def pickCore (outE : List (List Nat)) (n : Nat) : List Orientation :=
  (pickLoop outE n (List.range n)
    (List.replicate n Orientation.Forward, List.replicate n false)).1

/-- lib.rs `pick_orientations_with_non_switching_bfs`. -/
def pick_orientations_with_non_switching_bfs (g : DBG) : List Orientation :=
  pickCore g.out_edges g.n_unitigs

/-- The whole library pipeline (`optimize_unitig_orientation` in lib.rs):
build the doubled graph from the input sequences and their reverse
complements, then pick orientations with the non-switching BFS. `none` models
the slice panic of `DBG::build` on a sequence shorter than `k - 1`. -/
def optimize_unitig_orientation (input : List (List Base)) (k : Nat) :
    Option (List Orientation) :=
  (DBG.build input k).map pick_orientations_with_non_switching_bfs

/-- Activation test of one doubled edge `v → u` in lib.rs's `evaluate`:
`(v_flipped == (v >= n)) && (u_flipped == (u >= n))`. -/
def edgeActive (n : Nat) (choices : List Orientation) (v u : Nat) : Bool :=
  (decide (choices.getD (v % n) Orientation.Forward = Orientation.Reverse)
      == decide (n ≤ v)) &&
    (decide (choices.getD (u % n) Orientation.Forward = Orientation.Reverse)
      == decide (n ≤ u))

/-- Inner loop of lib.rs's `evaluate`: mark `u % n` for every active edge
`v → u` out of node `v`. -/
def markLoop (n : Nat) (choices : List Orientation) (v : Nat) :
    List Nat → List Bool → List Bool
  | [], hp => hp
  | u :: rest, hp =>
      markLoop n choices v rest
        (if edgeActive n choices v u then hp.set (u % n) true else hp)

/-- Outer loop of lib.rs's `evaluate` over the doubled nodes. -/
def markAll (g : DBG) (choices : List Orientation) :
    List Nat → List Bool → List Bool
  | [], hp => hp
  | v :: rest, hp =>
      markAll g choices rest
        (markLoop g.n_unitigs choices v (g.out_edges.getD v []) hp)

/-- Number of set flags (the closing fold of lib.rs's `evaluate`). -/
def countTrue : List Bool → Nat
  | [] => 0
  | b :: rest => (if b then 1 else 0) + countTrue rest

/-- lib.rs `evaluate`: count the unitigs that receive a live incoming edge
under the given orientation choices. (The comment in the source calls this the
number of unitigs without a predecessor, but the returned value is the count
of marked `has_pred` flags; the tests compute `n_unitigs - evaluate(..)` for
the source count.) -/
def evaluate (choices : List Orientation) (g : DBG) : Nat :=
  countTrue (markAll g choices (List.range (g.n_unitigs * 2))
    (List.replicate g.n_unitigs false))

/-- Adjacency list of a doubled node, as read by the algorithms. -/
def outAt (g : DBG) (v : Nat) : List Nat := g.out_edges.getD v []

/-- Multiplicity of a node in an adjacency list. -/
def countOcc (x : Nat) : List Nat → Nat
  | [] => 0
  | y :: rest => (if y = x then 1 else 0) + countOcc x rest

/-- Orientation that a doubled node represents: nodes below `n` carry the
input orientation, nodes from `n` on its reverse complement. -/
def nodeOrientation (n v : Nat) : Orientation :=
  if v < n then Orientation.Forward else Orientation.Reverse

/-- Flip the members of `F` (given as a mask) of an input collection to their
reverse complements before graph construction. -/
def flipInput (F : Nat → Bool) (seqs : List (List Base)) : List (List Base) :=
  (List.range seqs.length).map (fun i =>
    if F i then reverseComplement (seqs.getD i []) else seqs.getD i [])

/-- Flip the orientations of the members of `F` in an assignment. -/
def flipChoices (F : Nat → Bool) (choices : List Orientation) : List Orientation :=
  (List.range choices.length).map (fun i =>
    if F i then (choices.getD i Orientation.Forward).flip
    else choices.getD i Orientation.Forward)

/-- Node relabeling induced by flipping the members of `F`: a flipped
sequence swaps its forward node and its reverse node, every other node stays
in place. -/
def flipNode (F : Nat → Bool) (n x : Nat) : Nat :=
  if F (x % n) then (if x < n then x + n else x - n) else x

/-- The `(k-1)`-prefix of the oriented sequence a doubled node stands for:
the forward prefix below `n`, the prefix of the reverse complement from `n`
on. -/
def headKey (seqs : List (List Base)) (k x : Nat) : List Base :=
  if x < seqs.length then firstK k (seqs.getD x [])
  else firstK k (reverseComplement (seqs.getD (x - seqs.length) []))

/-- The `(k-1)`-suffix of the oriented sequence a doubled node stands for. -/
def tailKey (seqs : List (List Base)) (k x : Nat) : List Base :=
  if x < seqs.length then lastK k (seqs.getD x [])
  else lastK k (reverseComplement (seqs.getD (x - seqs.length) []))

/-- Trace-instrumented variant of `bfsLoop`: identical control flow, but also
records every commit (write of an orientation to an id) in order. Used to
observe whether an id is ever committed twice. -/
def bfsLoopT (outE : List (List Nat)) (n : Nat) (dir : Direction) :
    Nat → List Nat → List Orientation → List Bool → List (Nat × Orientation) →
      Option (List Orientation × List Bool × List (Nat × Orientation))
  | 0, _, _, _, _ => none
  | _ + 1, [], oris, visited, tr => some (oris, visited, tr)
  | fuel + 1, v :: queue, oris, visited, tr =>
    if v % n < visited.length then
      if visited.getD (v % n) false then
        bfsLoopT outE n dir fuel queue oris visited tr
      else
        bfsLoopT outE n dir fuel (queue ++ outE.getD v [])
          (oris.set (v % n) (bfsOrient n dir v))
          (visited.set (v % n) true)
          (tr ++ [(v % n, bfsOrient n dir v)])
    else some (oris, visited, tr)

/-- Trace-instrumented variant of `bfs`. -/
def bfsT (root : Nat) (dir : Direction) (oris : List Orientation)
    (visited : List Bool) (outE : List (List Nat)) (n : Nat)
    (tr : List (Nat × Orientation)) :
    List Orientation × List Bool × List (Nat × Orientation) :=
  let root := if dir = Direction.Backward then twinN n root else root
  (bfsLoopT outE n dir (stdFuel outE visited 1) [root] oris visited tr).getD
    (oris, visited, tr)

/-- Trace-instrumented variant of `pickStep`. -/
def pickStepT (outE : List (List Nat)) (n : Nat)
    (st : List Orientation × List Bool × List (Nat × Orientation)) (v : Nat) :
    List Orientation × List Bool × List (Nat × Orientation) :=
  if st.2.1.getD v false then st
  else
    let r1 := bfsT v Direction.Forward st.1 st.2.1 outE n st.2.2
    bfsT v Direction.Backward r1.1 (r1.2.1.set v false) outE n r1.2.2

/-- Trace-instrumented variant of `pickLoop`. -/
def pickLoopT (outE : List (List Nat)) (n : Nat) :
    List Nat → List Orientation × List Bool × List (Nat × Orientation) →
      List Orientation × List Bool × List (Nat × Orientation)
  | [], st => st
  | v :: rest, st => pickLoopT outE n rest (pickStepT outE n st v)

/-- Full run of the instrumented Assignor core. -/
def pickCoreT (outE : List (List Nat)) (n : Nat) :
    List Orientation × List Bool × List (Nat × Orientation) :=
  pickLoopT outE n (List.range n)
    (List.replicate n Orientation.Forward, List.replicate n false, [])

/-- Commit trace of `pick_orientations_with_non_switching_bfs`: the list of
(id, orientation) writes it performs, in order. -/
def pickTrace (g : DBG) : List (Nat × Orientation) :=
  (pickCoreT g.out_edges g.n_unitigs).2.2

/-- Modelled from the spec: main.rs uses an edge-tagged graph module
(`dbg.edges`, `build_dbg`, `dbg.unitigs`) whose source is not under src/;
only its callers in main.rs are. The edge record carries the 4-tuple of §3
(`from`/`to` are Lean keywords or too generic, hence `efrom`/`eto`). -/
structure Edge where
  efrom : Nat
  eto : Nat
  from_orientation : Orientation
  to_orientation : Orientation
deriving DecidableEq, Repr

/-- Modelled from the spec: the edge-tagged Overlap Graph of §3 consumed by
main.rs (`dbg.edges[id]` is the outgoing list of id, `unitigCount` stands for
`dbg.unitigs.sequence_count()`). -/
structure EdgeDBG where
  edges : List (List Edge)
  unitigCount : Nat
deriving DecidableEq, Repr

/-- One lookup row of the §4.2 builder: keep the occurrences with the wanted
mark and emit tagged edges out of `i`. -/
def edgeRule (i : Nat) (from_orientation to_orientation : Orientation)
    (keep : Position) (occs : List MapValue) : List Edge :=
  occs.filterMap (fun mv =>
    if mv.position = keep then
      some ⟨i, mv.unitig_id, from_orientation, to_orientation⟩
    else none)

/-- Modelled from the spec: the §4.2 Bidirected Overlap Graph Builder (the
edge-tagged `build_dbg` called by main.rs is not under src/). For each
sequence the four lookups of the table are emitted in order into its outgoing
list, using the same border map as `DBG::build`. -/
def buildEdgeDBG (seqs : List (List Base)) (k : Nat) : EdgeDBG :=
  { edges := (List.range seqs.length).map (fun i =>
      let s := seqs.getD i []
      let s_rc := reverseComplement s
      edgeRule i Orientation.Forward Orientation.Forward Position.Start
          (borders seqs k (lastK k s)) ++
        edgeRule i Orientation.Forward Orientation.Reverse Position.End
          (borders seqs k (firstK k s_rc)) ++
        edgeRule i Orientation.Reverse Orientation.Forward Position.Start
          (borders seqs k (lastK k s_rc)) ++
        edgeRule i Orientation.Reverse Orientation.Reverse Position.End
          (borders seqs k (firstK k s)))
    unitigCount := seqs.length }

namespace MainRs

/-- The two flag accumulators of main.rs's `is_terminal` loop: whether any
non-self-loop edge leaves in `Forward`, resp. in `Reverse`. -/
def leavingFlags (g : EdgeDBG) (unitig_id : Nat) : Bool × Bool :=
  (g.edges.getD unitig_id []).foldl
    (fun hb e =>
      if e.efrom = e.eto then hb
      else (hb.1 || decide (e.from_orientation = Orientation.Forward),
        hb.2 || decide (e.from_orientation = Orientation.Reverse)))
    (false, false)

/-- main.rs `is_terminal`: self-loops do not count; a unitig is terminal when
it does not have both Forward-leaving and Reverse-leaving edges. -/
def is_terminal (g : EdgeDBG) (unitig_id : Nat) : Bool :=
  !((leavingFlags g unitig_id).1 && (leavingFlags g unitig_id).2)

/-- Queue pushes of one step of main.rs's `bfs_from`: skip edges whose
`from_orientation` differs from the current orientation, otherwise push the
target with the orientation dictated by the edge's orientation pair. -/
def pushesFor (g : EdgeDBG) (unitig_id : Nat) (orientation : Orientation) :
    List (Nat × Orientation) :=
  (g.edges.getD unitig_id []).filterMap (fun e =>
    if e.from_orientation ≠ orientation then none
    else
      match e.from_orientation, e.to_orientation with
      | Orientation.Forward, Orientation.Forward => some (e.eto, orientation)
      | Orientation.Forward, Orientation.Reverse => some (e.eto, orientation.flip)
      | Orientation.Reverse, Orientation.Forward => some (e.eto, orientation.flip)
      | Orientation.Reverse, Orientation.Reverse => some (e.eto, orientation))

/-- Queue loop of main.rs's `bfs_from`, with fuel for computability as in
`bfsLoop`; an out-of-range `visited` index (a Rust panic, unreachable through
`pick_orientations`) stops with the current state. -/
def bfsFromLoop (g : EdgeDBG) :
    Nat → List (Nat × Orientation) → List Bool → List Orientation →
      Option (List Bool × List Orientation)
  | 0, _, _, _ => none
  | _ + 1, [], visited, oris => some (visited, oris)
  | fuel + 1, (unitig_id, o) :: q, visited, oris =>
    if unitig_id < visited.length then
      if visited.getD unitig_id false then bfsFromLoop g fuel q visited oris
      else
        bfsFromLoop g fuel (q ++ pushesFor g unitig_id o)
          (visited.set unitig_id true) (oris.set unitig_id o)
    else some (visited, oris)

/-- Total length of the tagged adjacency lists, for the fuel bound. -/
def edgesTotalLen : List (List Edge) → Nat
  | [] => 0
  | l :: rest => l.length + edgesTotalLen rest

/-- main.rs `bfs_from`: the root is arbitrarily pushed with orientation
`Forward` (source comment: Arbitrarily orient the root as forward). -/
def bfs_from (root : Nat) (g : EdgeDBG) (visited : List Bool)
    (oris : List Orientation) : List Bool × List Orientation :=
  (bfsFromLoop g (countFalse visited * (edgesTotalLen g.edges + 1) + 2)
      [(root, Orientation.Forward)] visited oris).getD (visited, oris)

/-- First root loop of main.rs's `pick_orientations`: only unvisited terminal
ids seed a BFS (the non-terminal guard is checked first, as in the source). -/
def phase1Loop (g : EdgeDBG) :
    List Nat → List Bool × List Orientation → List Bool × List Orientation
  | [], st => st
  | v :: rest, st =>
      phase1Loop g rest
        (if !is_terminal g v then st
        else if st.1.getD v false then st
        else bfs_from v g st.1 st.2)

/-- Second root loop of main.rs's `pick_orientations`: every still-unvisited
id seeds a BFS. -/
def phase2Loop (g : EdgeDBG) :
    List Nat → List Bool × List Orientation → List Bool × List Orientation
  | [], st => st
  | v :: rest, st =>
      phase2Loop g rest (if st.1.getD v false then st else bfs_from v g st.1 st.2)

/-- main.rs `pick_orientations`: BFS from terminal ids in ascending order,
then from the remaining unvisited ids in ascending order. The progress
counters and logging of the source are dropped. -/
def pick_orientations (g : EdgeDBG) : List Orientation :=
  let st0 := (List.replicate g.unitigCount false,
    List.replicate g.unitigCount Orientation.Forward)
  let st1 := phase1Loop g (List.range g.unitigCount) st0
  (phase2Loop g (List.range g.unitigCount) st1).2

/-- Inner loop of main.rs's `evaluate` over one outgoing list. -/
def markEdgeLoop (choices : List Orientation) (v : Nat) :
    List Edge → List Bool → List Bool
  | [], hp => hp
  | e :: rest, hp =>
      markEdgeLoop choices v rest
        (if choices.getD v Orientation.Forward = e.from_orientation ∧
            choices.getD e.eto Orientation.Forward = e.to_orientation then
          hp.set e.eto true
        else hp)

/-- Outer loop of main.rs's `evaluate`. -/
def markAllEdges (g : EdgeDBG) (choices : List Orientation) :
    List Nat → List Bool → List Bool
  | [], hp => hp
  | v :: rest, hp =>
      markAllEdges g choices rest
        (markEdgeLoop choices v (g.edges.getD v []) hp)

/-- main.rs `evaluate` on the edge-tagged graph. -/
def evaluate (choices : List Orientation) (g : EdgeDBG) : Nat :=
  countTrue (markAllEdges g choices (List.range g.unitigCount)
    (List.replicate g.unitigCount false))

end MainRs

/-- Modelled from the spec: the forced leaving orientation of a terminal id
(§4.3: a terminal id's non-self-loop outgoing edges agree on one
`from_orientation`; `none` when it has no non-self-loop edges at all or is
not terminal). -/
def forcedLeaving (g : EdgeDBG) (i : Nat) : Option Orientation :=
  match MainRs.leavingFlags g i with
  | (true, false) => some Orientation.Forward
  | (false, true) => some Orientation.Reverse
  | _ => none

/-- Concrete branch/merge scenario of §8 (the repository test builds one from
a seeded RNG; this is a fixed instance of the same shape): two independent
fragments s1, s2 merge into a shared middle fragment, supplied
reverse-complemented and listed first, which continues into a second middle
fragment and then diverges into two independent fragments s3, s4; k = 10. -/
def scenarioSeqs : List (List Base) :=
  [[Base.A,Base.T,Base.T,Base.C,Base.G,Base.G,Base.C,Base.C,Base.A,Base.G],
   [Base.A,Base.C,Base.T,Base.G,Base.G,Base.C,Base.C,Base.G,Base.A,Base.A],
   [Base.C,Base.C,Base.T,Base.G,Base.G,Base.C,Base.C,Base.G,Base.A,Base.A],
   [Base.T,Base.G,Base.G,Base.C,Base.C,Base.G,Base.A,Base.A,Base.T,Base.A,Base.G,Base.G,Base.G,Base.A,Base.T,Base.A,Base.T,Base.A,Base.G,Base.G,Base.C,Base.A,Base.A,Base.C,Base.G,Base.A,Base.C,Base.A],
   [Base.G,Base.C,Base.A,Base.A,Base.C,Base.G,Base.A,Base.C,Base.A,Base.T],
   [Base.G,Base.C,Base.A,Base.A,Base.C,Base.G,Base.A,Base.C,Base.A,Base.C]]

/-- Unitig `t` has a live, orientation-consistent incoming edge: some doubled
edge `v → u` targets `t` (`u % n = t`) and the assignment matches the
orientations both endpoints stand for. This is the per-target predicate the
Evaluator counts. -/
def hasLivePred (g : DBG) (choices : List Orientation) (t : Nat) : Prop :=
  ∃ v ∈ List.range (g.n_unitigs * 2), ∃ u ∈ outAt g v,
    u % g.n_unitigs = t ∧
    choices.getD (v % g.n_unitigs) Orientation.Forward =
      nodeOrientation g.n_unitigs v ∧
    choices.getD (u % g.n_unitigs) Orientation.Forward =
      nodeOrientation g.n_unitigs u

instance (g : DBG) (choices : List Orientation) (t : Nat) :
    Decidable (hasLivePred g choices t) := by
  unfold hasLivePred
  infer_instance

/-- Doubled target nodes contributed by one rule of `DBG::build`: the
occurrences with the wanted mark, offset by `n` when the target orientation
is `Reverse`. -/
def ruleTargets (n : Nat) (to_orientation : Orientation) (occs : List MapValue)
    (keep : Position) : List Nat :=
  occs.filterMap (fun mv =>
    if mv.position = keep then
      some (mv.unitig_id + (if to_orientation = Orientation.Reverse then 1 else 0) * n)
    else none)

/-- Adjacency list that `DBG::build` gives to forward node `i`: rule 1
(Forward, Forward) then rule 2 (Forward, Reverse). -/
def fwdTargets (seqs : List (List Base)) (k n i : Nat) : List Nat :=
  ruleTargets n Orientation.Forward
      (borders seqs k (lastK k (seqs.getD i []))) Position.Start ++
    ruleTargets n Orientation.Reverse
      (borders seqs k (firstK k (reverseComplement (seqs.getD i [])))) Position.End

/-- Adjacency list that `DBG::build` gives to reverse node `i + n`: rule 3
(Reverse, Forward) then rule 4 (Reverse, Reverse). -/
def revTargets (seqs : List (List Base)) (k n i : Nat) : List Nat :=
  ruleTargets n Orientation.Forward
      (borders seqs k (lastK k (reverseComplement (seqs.getD i [])))) Position.Start ++
    ruleTargets n Orientation.Reverse
      (borders seqs k (firstK k (seqs.getD i []))) Position.End

theorem countFalse_set_true_lt (l : List Bool) (i : Nat) (hi : i < l.length)
    (hf : l.getD i false = false) : countFalse (l.set i true) < countFalse l := by
  induction l generalizing i with
  | nil => simp at hi
  | cons b rest ih =>
    cases i with
    | zero =>
      have hb : b = false := by simpa using hf
      subst hb
      simp [countFalse, List.countP_cons]
    | succ j =>
      have hj : j < rest.length := by simpa using hi
      have hf' : rest.getD j false = false := by simpa using hf
      have h := ih j hj hf'
      simp only [List.set_cons_succ, countFalse, List.countP_cons] at *
      omega

theorem countFalse_pos (l : List Bool) (i : Nat) (hi : i < l.length)
    (hf : l.getD i false = false) : 0 < countFalse l := by
  induction l generalizing i with
  | nil => simp at hi
  | cons b rest ih =>
    cases i with
    | zero =>
      have hb : b = false := by simpa using hf
      subst hb
      simp [countFalse, List.countP_cons]
    | succ j =>
      have hj : j < rest.length := by simpa using hi
      have hf' : rest.getD j false = false := by simpa using hf
      have h := ih j hj hf'
      simp only [countFalse, List.countP_cons] at *
      omega

theorem getD_length_le_outTotalLen (outE : List (List Nat)) (v : Nat) :
    (outE.getD v []).length ≤ outTotalLen outE := by
  induction outE generalizing v with
  | nil => simp
  | cons l rest ih =>
    cases v with
    | zero => simp [outTotalLen]
    | succ w =>
      have h := ih w
      simp only [List.getD_cons_succ, outTotalLen]
      omega

theorem bfsLoop_nil (outE : List (List Nat)) (n : Nat) (dir : Direction)
    (f : Nat) (oris : List Orientation) (visited : List Bool) :
    bfsLoop outE n dir (f + 1) [] oris visited = some (oris, visited) := rfl

theorem bfsLoop_cons_oob (outE : List (List Nat)) (n : Nat) (dir : Direction)
    (f v : Nat) (q : List Nat) (oris : List Orientation) (visited : List Bool)
    (hin : ¬ v % n < visited.length) :
    bfsLoop outE n dir (f + 1) (v :: q) oris visited = some (oris, visited) := by
  rw [bfsLoop, if_neg hin]

theorem bfsLoop_cons_skip (outE : List (List Nat)) (n : Nat) (dir : Direction)
    (f v : Nat) (q : List Nat) (oris : List Orientation) (visited : List Bool)
    (hin : v % n < visited.length) (hvis : visited.getD (v % n) false = true) :
    bfsLoop outE n dir (f + 1) (v :: q) oris visited =
      bfsLoop outE n dir f q oris visited := by
  rw [bfsLoop, if_pos hin, if_pos hvis]

theorem bfsLoop_cons_commit (outE : List (List Nat)) (n : Nat) (dir : Direction)
    (f v : Nat) (q : List Nat) (oris : List Orientation) (visited : List Bool)
    (hin : v % n < visited.length) (hvis : visited.getD (v % n) false = false) :
    bfsLoop outE n dir (f + 1) (v :: q) oris visited =
      bfsLoop outE n dir f (q ++ outE.getD v [])
        (oris.set (v % n) (bfsOrient n dir v)) (visited.set (v % n) true) := by
  rw [bfsLoop, if_pos hin, if_neg (by simpa [List.getD] using hvis)]

/-- Termination of the BFS queue loop: with fuel at least
`countFalse visited * (outTotalLen outE + 1) + |queue| + 1` the loop always
finishes (returns `some`). This is the termination argument of lib.rs's
`bfs` on every finite graph, cycles and self-loops included: the visited
guard admits at most one commit per unitig, and only commits push. -/
theorem bfsLoop_completes (outE : List (List Nat)) (n : Nat) (dir : Direction) :
    ∀ (fuel : Nat) (q : List Nat) (oris : List Orientation) (visited : List Bool),
      countFalse visited * (outTotalLen outE + 1) + q.length + 1 ≤ fuel →
      ∃ r, bfsLoop outE n dir fuel q oris visited = some r := by
  intro fuel
  induction fuel with
  | zero => intro q oris visited h; omega
  | succ f ih =>
    intro q oris visited h
    match q with
    | [] => exact ⟨(oris, visited), rfl⟩
    | v :: queue =>
      by_cases hin : v % n < visited.length
      · by_cases hvis : visited.getD (v % n) false = true
        · have hf : countFalse visited * (outTotalLen outE + 1) + queue.length + 1 ≤ f := by
            simp only [List.length_cons] at h
            omega
          obtain ⟨r, hr⟩ := ih queue oris visited hf
          exact ⟨r, by rw [bfsLoop_cons_skip _ _ _ _ _ _ _ _ hin hvis, hr]⟩
        · have hvis' : visited.getD (v % n) false = false := by
            simpa using hvis
          have hpos : 0 < countFalse visited := countFalse_pos _ _ hin hvis'
          have hlt : countFalse (visited.set (v % n) true) < countFalse visited :=
            countFalse_set_true_lt _ _ hin hvis'
          have hpush : (outE.getD v []).length ≤ outTotalLen outE :=
            getD_length_le_outTotalLen outE v
          have hf : countFalse (visited.set (v % n) true) * (outTotalLen outE + 1) +
              (queue ++ outE.getD v []).length + 1 ≤ f := by
            have hmul : countFalse (visited.set (v % n) true) * (outTotalLen outE + 1) +
                (outTotalLen outE + 1) ≤ countFalse visited * (outTotalLen outE + 1) := by
              have : countFalse (visited.set (v % n) true) + 1 ≤ countFalse visited := hlt
              calc countFalse (visited.set (v % n) true) * (outTotalLen outE + 1) +
                  (outTotalLen outE + 1)
                  = (countFalse (visited.set (v % n) true) + 1) * (outTotalLen outE + 1) := by
                    ring
                _ ≤ countFalse visited * (outTotalLen outE + 1) :=
                    Nat.mul_le_mul_right _ this
            simp only [List.length_append, List.length_cons] at h ⊢
            omega
          obtain ⟨r, hr⟩ := ih _ _ _ hf
          exact ⟨r, by rw [bfsLoop_cons_commit _ _ _ _ _ _ _ _ hin hvis', hr]⟩
      · exact ⟨(oris, visited), bfsLoop_cons_oob _ _ _ _ _ _ _ _ hin⟩

/-- The wrapper `bfs` never takes its fallback: the loop it runs completes. -/
theorem bfs_completes (root : Nat) (dir : Direction) (oris : List Orientation)
    (visited : List Bool) (outE : List (List Nat)) (n : Nat) :
    ∃ r, bfsLoop outE n dir (stdFuel outE visited 1)
        [if dir = Direction.Backward then twinN n root else root] oris visited =
          some r ∧
      bfs root dir oris visited outE n = r := by
  obtain ⟨r, hr⟩ := bfsLoop_completes outE n dir (stdFuel outE visited 1)
    [if dir = Direction.Backward then twinN n root else root] oris visited
    (by simp [stdFuel])
  exact ⟨r, hr, by simp [bfs, hr]⟩


theorem getD_set_self {α : Type} (l : List α) (i : Nat) (a d : α)
    (h : i < l.length) : (l.set i a).getD i d = a := by
  induction l generalizing i with
  | nil => simp at h
  | cons b rest ih =>
    cases i with
    | zero => rfl
    | succ j => exact ih j (by simpa using h)

theorem getD_set_ne {α : Type} (l : List α) (i j : Nat) (a d : α)
    (h : i ≠ j) : (l.set i a).getD j d = l.getD j d := by
  induction l generalizing i j with
  | nil => rfl
  | cons b rest ih =>
    cases i with
    | zero =>
      cases j with
      | zero => exact absurd rfl h
      | succ j' => rfl
    | succ i' =>
      cases j with
      | zero => rfl
      | succ j' => exact ih i' j' (by omega)

theorem markLoop_length (n : Nat) (choices : List Orientation) (v : Nat)
    (us : List Nat) (hp : List Bool) :
    (markLoop n choices v us hp).length = hp.length := by
  induction us generalizing hp with
  | nil => rfl
  | cons u rest ih =>
    simp only [markLoop]
    rw [ih]
    split
    · simp
    · rfl

theorem markLoop_getD (n : Nat) (choices : List Orientation) (v : Nat)
    (us : List Nat) (hp : List Bool) (t : Nat) (ht : t < hp.length) :
    (markLoop n choices v us hp).getD t false =
      (hp.getD t false ||
        us.any (fun u => edgeActive n choices v u && decide (u % n = t))) := by
  induction us generalizing hp with
  | nil => simp [markLoop]
  | cons u rest ih =>
    simp only [markLoop, List.any_cons]
    by_cases ha : edgeActive n choices v u = true
    · rw [if_pos ha]
      rw [ih _ (by simpa using ht)]
      by_cases hu : u % n = t
      · subst hu
        rw [getD_set_self _ _ _ _ ht]
        simp [ha]
      · rw [getD_set_ne _ _ _ _ _ (by omega)]
        simp [hu]
    · rw [if_neg ha]
      rw [ih _ ht]
      simp only [Bool.not_eq_true] at ha
      simp [ha]

theorem markAll_length (g : DBG) (choices : List Orientation)
    (vs : List Nat) (hp : List Bool) :
    (markAll g choices vs hp).length = hp.length := by
  induction vs generalizing hp with
  | nil => rfl
  | cons v rest ih =>
    simp only [markAll]
    rw [ih, markLoop_length]

theorem markAll_getD (g : DBG) (choices : List Orientation)
    (vs : List Nat) (hp : List Bool) (t : Nat) (ht : t < hp.length) :
    (markAll g choices vs hp).getD t false =
      (hp.getD t false ||
        vs.any (fun v => (g.out_edges.getD v []).any (fun u =>
          edgeActive g.n_unitigs choices v u && decide (u % g.n_unitigs = t)))) := by
  induction vs generalizing hp with
  | nil => simp [markAll]
  | cons v rest ih =>
    simp only [markAll, List.any_cons]
    rw [ih _ (by rw [markLoop_length]; exact ht)]
    rw [markLoop_getD _ _ _ _ _ _ ht]
    simp [Bool.or_assoc]

theorem countTrue_eq_filter_length (l : List Bool) :
    countTrue l = ((List.range l.length).filter (fun t => l.getD t false)).length := by
  induction l with
  | nil => rfl
  | cons b rest ih =>
    simp only [countTrue, List.length_cons, List.range_succ_eq_map]
    rw [List.filter_cons]
    have hmap : (List.map Nat.succ (List.range rest.length)).filter
        (fun t => (b :: rest).getD t false) =
        ((List.range rest.length).filter (fun t => rest.getD t false)).map Nat.succ := by
      rw [List.filter_map]
      rfl
    rw [hmap]
    by_cases hb : b = true
    · subst hb
      simp [ih]
      omega
    · simp only [Bool.not_eq_true] at hb
      subst hb
      simp [ih]

theorem length_filter_not_aux {α : Type} (l : List α) (p : α → Bool) :
    (l.filter p).length + (l.filter (fun x => !(p x))).length = l.length := by
  induction l with
  | nil => rfl
  | cons a rest ih =>
    rw [List.filter_cons, List.filter_cons]
    by_cases hp : p a = true
    · simp [hp, ← ih]
      omega
    · simp only [Bool.not_eq_true] at hp
      simp [hp, ← ih]
      omega

theorem take_reverse_eq {α : Type} (s : List α) (m : Nat) :
    s.reverse.take m = (s.drop (s.length - m)).reverse := by
  have h : (List.take m s.reverse).reverse =
      List.drop (s.reverse.length - m) s.reverse.reverse := List.reverse_take
  simp only [List.reverse_reverse, List.length_reverse] at h
  rw [← h, List.reverse_reverse]

theorem drop_reverse_eq {α : Type} (s : List α) (m : Nat) :
    s.reverse.drop m = (s.take (s.length - m)).reverse := by
  have h : (List.take (s.length - m) s).reverse =
      List.drop (s.length - (s.length - m)) s.reverse := List.reverse_take
  by_cases hm : m ≤ s.length
  · have heq : s.length - (s.length - m) = m := by omega
    rw [heq] at h
    exact h.symm
  · rw [List.drop_eq_nil_of_le (by rw [List.length_reverse]; omega)]
    have h0 : s.length - m = 0 := by omega
    rw [h0]
    simp

theorem rc_rc (s : List Base) : reverseComplement (reverseComplement s) = s := by
  have hcc : (Base.complement ∘ Base.complement) = id := by
    funext b
    cases b <;> rfl
  simp [reverseComplement, List.map_reverse, List.map_map, hcc]

theorem rc_eq_comm (a b : List Base) :
    a = reverseComplement b ↔ b = reverseComplement a := by
  constructor <;> (intro h; subst h; rw [rc_rc])

theorem firstK_rc (k : Nat) (s : List Base) :
    firstK k (reverseComplement s) = reverseComplement (lastK k s) := by
  unfold firstK lastK reverseComplement
  rw [← List.map_take, take_reverse_eq]

theorem lastK_rc (k : Nat) (s : List Base) :
    lastK k (reverseComplement s) = reverseComplement (firstK k s) := by
  unfold firstK lastK reverseComplement
  rw [← List.map_drop]
  have hlen : (List.map Base.complement s.reverse).length = s.length := by simp
  rw [hlen, drop_reverse_eq]
  by_cases hk : k - 1 ≤ s.length
  · have heq : s.length - (s.length - (k - 1)) = k - 1 := by omega
    rw [heq]
  · have h1 : s.length - (s.length - (k - 1)) = s.length := by omega
    rw [h1, List.take_length, List.take_of_length_le (by omega)]

theorem countOcc_append (x : Nat) (l1 l2 : List Nat) :
    countOcc x (l1 ++ l2) = countOcc x l1 + countOcc x l2 := by
  induction l1 with
  | nil => simp [countOcc]
  | cons y rest ih =>
    show (if y = x then 1 else 0) + countOcc x (rest ++ l2) =
      ((if y = x then 1 else 0) + countOcc x rest) + countOcc x l2
    rw [ih]
    omega

theorem getD_replicate {α : Type} (m w : Nat) (a : α) :
    (List.replicate m a).getD w a = a := by
  induction m generalizing w with
  | zero => rfl
  | succ m' ih =>
    cases w with
    | zero => rfl
    | succ w' => exact ih w'

theorem add_edge_n (g : DBG) (a b : Nat) (fo too : Orientation) :
    (g.add_edge a b fo too).n_unitigs = g.n_unitigs := rfl

theorem add_edge_outlen (g : DBG) (a b : Nat) (fo too : Orientation) :
    (g.add_edge a b fo too).out_edges.length = g.out_edges.length := by
  simp [DBG.add_edge]

theorem add_edge_out (g : DBG) (a b : Nat) (fo too : Orientation) (w : Nat)
    (hv : a + (if fo = Orientation.Reverse then 1 else 0) * g.n_unitigs <
      g.out_edges.length) :
    (g.add_edge a b fo too).out_edges.getD w [] =
      if w = a + (if fo = Orientation.Reverse then 1 else 0) * g.n_unitigs then
        g.out_edges.getD w [] ++
          [b + (if too = Orientation.Reverse then 1 else 0) * g.n_unitigs]
      else g.out_edges.getD w [] := by
  unfold DBG.add_edge
  by_cases hw : w = a + (if fo = Orientation.Reverse then 1 else 0) * g.n_unitigs
  · rw [if_pos hw, hw]
    exact getD_set_self _ _ _ _ hv
  · rw [if_neg hw]
    exact getD_set_ne _ _ _ _ _ (by omega)

theorem ruleLoop_n (i : Nat) (fo too : Orientation) (keep : Position)
    (occs : List MapValue) (g : DBG) :
    (ruleLoop i fo too keep occs g).n_unitigs = g.n_unitigs := by
  induction occs generalizing g with
  | nil => rfl
  | cons mv rest ih =>
    simp only [ruleLoop]
    rw [ih]
    split <;> rfl

theorem ruleLoop_outlen (i : Nat) (fo too : Orientation) (keep : Position)
    (occs : List MapValue) (g : DBG) :
    (ruleLoop i fo too keep occs g).out_edges.length = g.out_edges.length := by
  induction occs generalizing g with
  | nil => rfl
  | cons mv rest ih =>
    simp only [ruleLoop]
    rw [ih]
    split
    · rw [add_edge_outlen]
    · rfl

theorem ruleLoop_out (i : Nat) (fo too : Orientation) (keep : Position)
    (occs : List MapValue) (g : DBG) (w : Nat)
    (hv : i + (if fo = Orientation.Reverse then 1 else 0) * g.n_unitigs <
      g.out_edges.length) :
    (ruleLoop i fo too keep occs g).out_edges.getD w [] =
      if w = i + (if fo = Orientation.Reverse then 1 else 0) * g.n_unitigs then
        g.out_edges.getD w [] ++ ruleTargets g.n_unitigs too occs keep
      else g.out_edges.getD w [] := by
  induction occs generalizing g with
  | nil =>
    simp only [ruleLoop, ruleTargets, List.filterMap_nil, List.append_nil, ite_self]
  | cons mv rest ih =>
    simp only [ruleLoop]
    by_cases hpos : mv.position = keep
    · rw [if_pos hpos]
      have hv' : i + (if fo = Orientation.Reverse then 1 else 0) *
          (g.add_edge i mv.unitig_id fo too).n_unitigs <
          (g.add_edge i mv.unitig_id fo too).out_edges.length := by
        rw [add_edge_n, add_edge_outlen]
        exact hv
      rw [ih _ hv']
      rw [add_edge_n]
      have htargets : ruleTargets g.n_unitigs too (mv :: rest) keep =
          (mv.unitig_id + (if too = Orientation.Reverse then 1 else 0) * g.n_unitigs)
            :: ruleTargets g.n_unitigs too rest keep := by
        simp [ruleTargets, List.filterMap_cons, hpos]
      rw [htargets]
      by_cases hw : w = i + (if fo = Orientation.Reverse then 1 else 0) * g.n_unitigs
      · rw [if_pos hw, if_pos hw, add_edge_out _ _ _ _ _ _ hv, if_pos hw]
        simp
      · rw [if_neg hw, if_neg hw, add_edge_out _ _ _ _ _ _ hv, if_neg hw]
    · rw [if_neg hpos]
      rw [ih _ hv]
      have htargets : ruleTargets g.n_unitigs too (mv :: rest) keep =
          ruleTargets g.n_unitigs too rest keep := by
        simp [ruleTargets, List.filterMap_cons, hpos]
      rw [htargets]

theorem buildStep_n (seqs : List (List Base)) (k : Nat) (g : DBG) (i : Nat) :
    (buildStep seqs k g i).n_unitigs = g.n_unitigs := by
  unfold buildStep
  rw [ruleLoop_n, ruleLoop_n, ruleLoop_n, ruleLoop_n]

theorem buildStep_outlen (seqs : List (List Base)) (k : Nat) (g : DBG) (i : Nat) :
    (buildStep seqs k g i).out_edges.length = g.out_edges.length := by
  unfold buildStep
  rw [ruleLoop_outlen, ruleLoop_outlen, ruleLoop_outlen, ruleLoop_outlen]

theorem buildStep_out (seqs : List (List Base)) (k : Nat) (g : DBG) (i w : Nat)
    (hi : i < g.n_unitigs) (hlen : g.out_edges.length = 2 * g.n_unitigs) :
    (buildStep seqs k g i).out_edges.getD w [] =
      if w = i then
        g.out_edges.getD w [] ++ fwdTargets seqs k g.n_unitigs i
      else if w = i + g.n_unitigs then
        g.out_edges.getD w [] ++ revTargets seqs k g.n_unitigs i
      else g.out_edges.getD w [] := by
  have efwd : i + (if Orientation.Forward = Orientation.Reverse then 1 else 0) *
      g.n_unitigs = i := by simp
  have erev : i + (if Orientation.Reverse = Orientation.Reverse then 1 else 0) *
      g.n_unitigs = i + g.n_unitigs := by simp
  set B1 := borders seqs k (lastK k (seqs.getD i [])) with hB1
  set B2 := borders seqs k (firstK k (reverseComplement (seqs.getD i []))) with hB2
  set B3 := borders seqs k (lastK k (reverseComplement (seqs.getD i []))) with hB3
  set B4 := borders seqs k (firstK k (seqs.getD i [])) with hB4
  set g1 := ruleLoop i Orientation.Forward Orientation.Forward Position.Start B1 g
    with hg1
  set g2 := ruleLoop i Orientation.Forward Orientation.Reverse Position.End B2 g1
    with hg2
  set g3 := ruleLoop i Orientation.Reverse Orientation.Forward Position.Start B3 g2
    with hg3
  have hn1 : g1.n_unitigs = g.n_unitigs := by rw [hg1, ruleLoop_n]
  have hn2 : g2.n_unitigs = g.n_unitigs := by rw [hg2, ruleLoop_n, hn1]
  have hn3 : g3.n_unitigs = g.n_unitigs := by rw [hg3, ruleLoop_n, hn2]
  have hl1 : g1.out_edges.length = 2 * g.n_unitigs := by
    rw [hg1, ruleLoop_outlen, hlen]
  have hl2 : g2.out_edges.length = 2 * g.n_unitigs := by
    rw [hg2, ruleLoop_outlen, hl1]
  have hl3 : g3.out_edges.length = 2 * g.n_unitigs := by
    rw [hg3, ruleLoop_outlen, hl2]
  have s1 : g1.out_edges.getD w [] =
      if w = i then
        g.out_edges.getD w [] ++
          ruleTargets g.n_unitigs Orientation.Forward B1 Position.Start
      else g.out_edges.getD w [] := by
    rw [hg1, ruleLoop_out _ _ _ _ _ _ _ (by rw [hlen, efwd]; omega), efwd]
  have s2 : g2.out_edges.getD w [] =
      if w = i then
        g1.out_edges.getD w [] ++
          ruleTargets g.n_unitigs Orientation.Reverse B2 Position.End
      else g1.out_edges.getD w [] := by
    rw [hg2, ruleLoop_out _ _ _ _ _ _ _ (by rw [hn1, hl1, efwd]; omega), hn1, efwd]
  have s3 : g3.out_edges.getD w [] =
      if w = i + g.n_unitigs then
        g2.out_edges.getD w [] ++
          ruleTargets g.n_unitigs Orientation.Forward B3 Position.Start
      else g2.out_edges.getD w [] := by
    rw [hg3, ruleLoop_out _ _ _ _ _ _ _ (by rw [hn2, hl2, erev]; omega), hn2, erev]
  have hmain : (buildStep seqs k g i).out_edges.getD w [] =
      if w = i + g.n_unitigs then
        g3.out_edges.getD w [] ++
          ruleTargets g.n_unitigs Orientation.Reverse B4 Position.End
      else g3.out_edges.getD w [] := by
    show (ruleLoop i Orientation.Reverse Orientation.Reverse Position.End B4
      g3).out_edges.getD w [] = _
    rw [ruleLoop_out _ _ _ _ _ _ _ (by rw [hn3, hl3, erev]; omega), hn3, erev]
  rw [hmain, s3, s2, s1]
  by_cases hw1 : w = i
  · subst hw1
    have hfalse : ¬ (w = w + g.n_unitigs) := by omega
    simp only [if_neg hfalse, eq_self_iff_true, if_true, fwdTargets]
    rw [← hB1, ← hB2, List.append_assoc]
  · by_cases hw2 : w = i + g.n_unitigs
    · subst hw2
      simp only [if_neg hw1, eq_self_iff_true, if_true, revTargets]
      rw [← hB3, ← hB4, List.append_assoc]
    · simp only [if_neg hw1, if_neg hw2]

theorem buildLoop_n (seqs : List (List Base)) (k : Nat) (l : List Nat) (g : DBG) :
    (buildLoop seqs k l g).n_unitigs = g.n_unitigs := by
  induction l generalizing g with
  | nil => rfl
  | cons i rest ih =>
    simp only [buildLoop]
    rw [ih, buildStep_n]

theorem buildLoop_outlen (seqs : List (List Base)) (k : Nat) (l : List Nat)
    (g : DBG) :
    (buildLoop seqs k l g).out_edges.length = g.out_edges.length := by
  induction l generalizing g with
  | nil => rfl
  | cons i rest ih =>
    simp only [buildLoop]
    rw [ih, buildStep_outlen]

theorem buildLoop_out (seqs : List (List Base)) (k : Nat) (l : List Nat)
    (g : DBG) (w : Nat) (hnodup : l.Nodup)
    (hmem : ∀ j ∈ l, j < g.n_unitigs)
    (hlen : g.out_edges.length = 2 * g.n_unitigs) :
    (buildLoop seqs k l g).out_edges.getD w [] =
      if w < g.n_unitigs ∧ w ∈ l then
        g.out_edges.getD w [] ++ fwdTargets seqs k g.n_unitigs w
      else if g.n_unitigs ≤ w ∧ w - g.n_unitigs ∈ l then
        g.out_edges.getD w [] ++ revTargets seqs k g.n_unitigs (w - g.n_unitigs)
      else g.out_edges.getD w [] := by
  induction l generalizing g with
  | nil => simp [buildLoop]
  | cons i rest ih =>
    have hi : i < g.n_unitigs := hmem i (by simp)
    have hnodup' : rest.Nodup := (List.nodup_cons.mp hnodup).2
    have hinotin : i ∉ rest := (List.nodup_cons.mp hnodup).1
    simp only [buildLoop]
    rw [ih (buildStep seqs k g i)
      hnodup'
      (by intro j hj; rw [buildStep_n]; exact hmem j (by simp [hj]))
      (by rw [buildStep_outlen, buildStep_n]; exact hlen)]
    rw [buildStep_n]
    rw [buildStep_out seqs k g i w hi hlen]
    by_cases hw1 : w = i
    · subst hw1
      have hc1 : ¬ (w < g.n_unitigs ∧ w ∈ rest) := fun h => hinotin h.2
      have hc2 : ¬ (g.n_unitigs ≤ w ∧ w - g.n_unitigs ∈ rest) := fun h => by omega
      have hfalse : ¬ (w = w + g.n_unitigs) := by omega
      simp only [if_neg hc1, if_neg hc2, if_neg hfalse, eq_self_iff_true, if_true]
      rw [if_pos ⟨hi, List.mem_cons_self w rest⟩]
    · by_cases hw2 : w = i + g.n_unitigs
      · subst hw2
        have hc1 : ¬ (i + g.n_unitigs < g.n_unitigs ∧ i + g.n_unitigs ∈ rest) :=
          fun h => by omega
        have hsub : i + g.n_unitigs - g.n_unitigs = i := by omega
        have hc2 : ¬ (g.n_unitigs ≤ i + g.n_unitigs ∧
            i + g.n_unitigs - g.n_unitigs ∈ rest) := by
          intro h
          exact hinotin (hsub ▸ h.2)
        simp only [if_neg hc1, if_neg hc2, if_neg hw1, eq_self_iff_true, if_true]
        rw [if_neg (show ¬ (i + g.n_unitigs < g.n_unitigs ∧
          i + g.n_unitigs ∈ i :: rest) from fun h => by omega)]
        rw [if_pos ⟨by omega, by rw [hsub]; exact List.mem_cons_self i rest⟩, hsub]
      · simp only [if_neg hw1, if_neg hw2]
        have e1 : (w < g.n_unitigs ∧ w ∈ i :: rest) ↔ (w < g.n_unitigs ∧ w ∈ rest) := by
          constructor
          · intro h
            refine ⟨h.1, ?_⟩
            rcases List.mem_cons.mp h.2 with h' | h'
            · exact absurd h' hw1
            · exact h'
          · intro h
            exact ⟨h.1, by simp [h.2]⟩
        have e2 : (g.n_unitigs ≤ w ∧ w - g.n_unitigs ∈ i :: rest) ↔
            (g.n_unitigs ≤ w ∧ w - g.n_unitigs ∈ rest) := by
          constructor
          · intro h
            refine ⟨h.1, ?_⟩
            rcases List.mem_cons.mp h.2 with h' | h'
            · exact absurd (by omega : w = i + g.n_unitigs) hw2
            · exact h'
          · intro h
            exact ⟨h.1, by simp [h.2]⟩
        by_cases hc1 : w < g.n_unitigs ∧ w ∈ rest
        · rw [if_pos hc1, if_pos (e1.mpr hc1)]
        · rw [if_neg hc1, if_neg (fun h => hc1 (e1.mp h))]
          by_cases hc2 : g.n_unitigs ≤ w ∧ w - g.n_unitigs ∈ rest
          · rw [if_pos hc2, if_pos (e2.mpr hc2)]
          · rw [if_neg hc2, if_neg (fun h => hc2 (e2.mp h))]

theorem buildTotal_n (seqs : List (List Base)) (k : Nat) :
    (buildTotal seqs k).n_unitigs = seqs.length := by
  unfold buildTotal
  show (buildLoop seqs k (List.range seqs.length) (DBG.new seqs.length)).n_unitigs =
    seqs.length
  rw [buildLoop_n]
  rfl

theorem buildTotal_out (seqs : List (List Base)) (k : Nat) (w : Nat) :
    outAt (buildTotal seqs k) w =
      if w < seqs.length then fwdTargets seqs k seqs.length w
      else if w < 2 * seqs.length then
        revTargets seqs k seqs.length (w - seqs.length)
      else [] := by
  unfold outAt buildTotal
  show (buildLoop seqs k (List.range seqs.length)
      (DBG.new seqs.length)).out_edges.getD w [] = _
  have hnew_n : (DBG.new seqs.length).n_unitigs = seqs.length := rfl
  have hnew_len : (DBG.new seqs.length).out_edges.length = 2 * seqs.length := by
    show (List.replicate (seqs.length * 2) ([] : List Nat)).length = 2 * seqs.length
    rw [List.length_replicate]
    omega
  have hnew_getD : ∀ w', (DBG.new seqs.length).out_edges.getD w' [] = [] := by
    intro w'
    exact getD_replicate _ _ _
  rw [buildLoop_out seqs k (List.range seqs.length) (DBG.new seqs.length) w
    (List.nodup_range _)
    (by intro j hj; rw [hnew_n]; exact List.mem_range.mp hj)
    hnew_len]
  rw [hnew_n, hnew_getD]
  by_cases h1 : w < seqs.length
  · rw [if_pos ⟨h1, List.mem_range.mpr h1⟩, if_pos h1]
    simp
  · rw [if_neg (fun h => h1 h.1), if_neg h1]
    by_cases h2 : w < 2 * seqs.length
    · rw [if_pos ⟨by omega, List.mem_range.mpr (by omega)⟩, if_pos h2]
      simp
    · rw [if_neg (by
        intro hcontra
        have := List.mem_range.mp hcontra.2
        omega), if_neg h2]

theorem ruleTargets_bordersFrom (seqs : List (List Base)) (k : Nat)
    (key : List Base) (n : Nat) (too : Orientation) (keep : Position)
    (l : List Nat) :
    ruleTargets n too (bordersFrom seqs k key l) keep =
      l.filterMap (fun j =>
        if (if keep = Position.Start then firstK k (seqs.getD j [])
            else lastK k (seqs.getD j [])) = key then
          some (j + (if too = Orientation.Reverse then 1 else 0) * n)
        else none) := by
  induction l with
  | nil => rfl
  | cons j rest ih =>
    simp only [bordersFrom, ruleTargets, List.filterMap_append,
      List.filterMap_cons] at ih ⊢
    cases keep <;>
      by_cases h1 : firstK k (seqs.getD j []) = key <;>
        by_cases h2 : lastK k (seqs.getD j []) = key <;>
          (try simp only [List.getD_eq_getElem?_getD] at h1 h2) <;>
          simp [h1, h2] at ih ⊢ <;> exact ih

theorem countOcc_filterMap_shift (l : List Nat) (hl : l.Nodup) (off x : Nat)
    (p : Nat → Prop) [DecidablePred p] :
    countOcc x (l.filterMap (fun j => if p j then some (j + off) else none)) =
      if off ≤ x ∧ (x - off) ∈ l ∧ p (x - off) then 1 else 0 := by
  induction l with
  | nil => simp [countOcc]
  | cons j rest ih =>
    have hnd := List.nodup_cons.mp hl
    rw [List.filterMap_cons]
    by_cases hp : p j
    · rw [if_pos hp]
      show (if j + off = x then 1 else 0) +
        countOcc x (rest.filterMap (fun j => if p j then some (j + off) else none)) = _
      rw [ih hnd.2]
      by_cases he : j + off = x
      · rw [if_pos he]
        have hx2 : x - off = j := by omega
        rw [if_neg (fun h => hnd.1 (hx2 ▸ h.2.1))]
        rw [if_pos ⟨by omega, by rw [hx2]; exact List.mem_cons_self j rest,
          by rw [hx2]; exact hp⟩]
      · rw [if_neg he]
        have hiff : (off ≤ x ∧ x - off ∈ j :: rest ∧ p (x - off)) ↔
            (off ≤ x ∧ x - off ∈ rest ∧ p (x - off)) := by
          constructor
          · rintro ⟨ha, hb, hc⟩
            rcases List.mem_cons.mp hb with h' | h'
            · exact absurd (by omega : j + off = x) he
            · exact ⟨ha, h', hc⟩
          · rintro ⟨ha, hb, hc⟩
            exact ⟨ha, by simp [hb], hc⟩
        rw [if_congr hiff rfl rfl]
        omega
    · rw [if_neg hp, ih hnd.2]
      have hiff : (off ≤ x ∧ x - off ∈ j :: rest ∧ p (x - off)) ↔
          (off ≤ x ∧ x - off ∈ rest ∧ p (x - off)) := by
        constructor
        · rintro ⟨ha, hb, hc⟩
          rcases List.mem_cons.mp hb with h' | h'
          · rw [h'] at hc
            exact absurd hc hp
          · exact ⟨ha, h', hc⟩
        · rintro ⟨ha, hb, hc⟩
          exact ⟨ha, by simp [hb], hc⟩
      rw [if_congr hiff rfl rfl]

theorem ruleTargets_start_fwd (seqs : List (List Base)) (k : Nat)
    (key : List Base) (n : Nat) (l : List Nat) :
    ruleTargets n Orientation.Forward (bordersFrom seqs k key l) Position.Start =
      l.filterMap (fun j =>
        if firstK k (seqs.getD j []) = key then some j else none) := by
  rw [ruleTargets_bordersFrom]
  congr 1
  funext j
  simp

theorem ruleTargets_end_rev (seqs : List (List Base)) (k : Nat)
    (key : List Base) (n : Nat) (l : List Nat) :
    ruleTargets n Orientation.Reverse (bordersFrom seqs k key l) Position.End =
      l.filterMap (fun j =>
        if lastK k (seqs.getD j []) = key then some (j + n) else none) := by
  rw [ruleTargets_bordersFrom]
  congr 1
  funext j
  simp

theorem countOcc_filterMap_id (l : List Nat) (hl : l.Nodup) (x : Nat)
    (p : Nat → Prop) [DecidablePred p] :
    countOcc x (l.filterMap (fun j => if p j then some j else none)) =
      if x ∈ l ∧ p x then 1 else 0 := by
  induction l with
  | nil => simp [countOcc]
  | cons j rest ih =>
    have hnd := List.nodup_cons.mp hl
    rw [List.filterMap_cons]
    by_cases hp : p j
    · rw [if_pos hp]
      show (if j = x then 1 else 0) +
        countOcc x (rest.filterMap (fun j => if p j then some j else none)) = _
      rw [ih hnd.2]
      by_cases he : j = x
      · subst he
        rw [if_pos rfl, if_neg (fun h => hnd.1 h.1),
          if_pos ⟨List.mem_cons_self j rest, hp⟩]
      · rw [if_neg he]
        have hiff : (x ∈ j :: rest ∧ p x) ↔ (x ∈ rest ∧ p x) := by
          constructor
          · rintro ⟨hb, hc⟩
            rcases List.mem_cons.mp hb with h' | h'
            · exact absurd h'.symm he
            · exact ⟨h', hc⟩
          · rintro ⟨hb, hc⟩
            exact ⟨by simp [hb], hc⟩
        rw [if_congr hiff rfl rfl]
        omega
    · rw [if_neg hp, ih hnd.2]
      have hiff : (x ∈ j :: rest ∧ p x) ↔ (x ∈ rest ∧ p x) := by
        constructor
        · rintro ⟨hb, hc⟩
          rcases List.mem_cons.mp hb with h' | h'
          · rw [h'] at hc
            exact absurd hc hp
          · exact ⟨h', hc⟩
        · rintro ⟨hb, hc⟩
          exact ⟨by simp [hb], hc⟩
      rw [if_congr hiff rfl rfl]

theorem countOcc_fwdTargets (seqs : List (List Base)) (k u i : Nat) :
    countOcc u (fwdTargets seqs k seqs.length i) =
      (if u < seqs.length ∧
          firstK k (seqs.getD u []) = lastK k (seqs.getD i []) then 1 else 0) +
      (if seqs.length ≤ u ∧ u - seqs.length < seqs.length ∧
          lastK k (seqs.getD (u - seqs.length) []) =
            firstK k (reverseComplement (seqs.getD i [])) then 1 else 0) := by
  unfold fwdTargets borders
  rw [countOcc_append, ruleTargets_start_fwd, ruleTargets_end_rev]
  rw [countOcc_filterMap_id _ (List.nodup_range _),
    countOcc_filterMap_shift _ (List.nodup_range _)]
  congr 1
  · apply if_congr _ rfl rfl
    constructor
    · rintro ⟨hb, hc⟩
      exact ⟨List.mem_range.mp hb, hc⟩
    · rintro ⟨hb, hc⟩
      exact ⟨List.mem_range.mpr hb, hc⟩
  · apply if_congr _ rfl rfl
    constructor
    · rintro ⟨ha, hb, hc⟩
      exact ⟨ha, List.mem_range.mp hb, hc⟩
    · rintro ⟨ha, hb, hc⟩
      exact ⟨ha, List.mem_range.mpr hb, hc⟩

theorem countOcc_revTargets (seqs : List (List Base)) (k u i : Nat) :
    countOcc u (revTargets seqs k seqs.length i) =
      (if u < seqs.length ∧
          firstK k (seqs.getD u []) =
            lastK k (reverseComplement (seqs.getD i [])) then 1 else 0) +
      (if seqs.length ≤ u ∧ u - seqs.length < seqs.length ∧
          lastK k (seqs.getD (u - seqs.length) []) =
            firstK k (seqs.getD i []) then 1 else 0) := by
  unfold revTargets borders
  rw [countOcc_append, ruleTargets_start_fwd, ruleTargets_end_rev]
  rw [countOcc_filterMap_id _ (List.nodup_range _),
    countOcc_filterMap_shift _ (List.nodup_range _)]
  congr 1
  · apply if_congr _ rfl rfl
    constructor
    · rintro ⟨hb, hc⟩
      exact ⟨List.mem_range.mp hb, hc⟩
    · rintro ⟨hb, hc⟩
      exact ⟨List.mem_range.mpr hb, hc⟩
  · apply if_congr _ rfl rfl
    constructor
    · rintro ⟨ha, hb, hc⟩
      exact ⟨ha, List.mem_range.mp hb, hc⟩
    · rintro ⟨ha, hb, hc⟩
      exact ⟨ha, List.mem_range.mpr hb, hc⟩

theorem build_eq_some (seqs : List (List Base)) (k : Nat) (g : DBG)
    (hb : DBG.build seqs k = some g) : g = buildTotal seqs k := by
  unfold DBG.build at hb
  rcases hbc : buildBordersChecked seqs k with _ | f
  · rw [hbc] at hb
    exact absurd hb (by simp)
  · rw [hbc] at hb
    simpa using hb.symm

theorem orient_match_iff (n v : Nat) (x : Orientation) :
    ((decide (x = Orientation.Reverse) == decide (n ≤ v)) = true) ↔
      x = nodeOrientation n v := by
  unfold nodeOrientation
  by_cases hv : v < n
  · rw [if_pos hv]
    have h1 : decide (n ≤ v) = false := decide_eq_false (by omega)
    rw [h1]
    cases x <;> simp
  · rw [if_neg hv]
    have h1 : decide (n ≤ v) = true := decide_eq_true (by omega)
    rw [h1]
    cases x <;> simp

theorem edgeActive_iff (n : Nat) (choices : List Orientation) (v u : Nat) :
    edgeActive n choices v u = true ↔
      (choices.getD (v % n) Orientation.Forward = nodeOrientation n v ∧
        choices.getD (u % n) Orientation.Forward = nodeOrientation n u) := by
  unfold edgeActive
  rw [Bool.and_eq_true, orient_match_iff, orient_match_iff]

theorem evaluate_eq_filter (g : DBG) (choices : List Orientation) :
    evaluate choices g =
      ((List.range g.n_unitigs).filter
        (fun t => decide (hasLivePred g choices t))).length := by
  unfold evaluate
  rw [countTrue_eq_filter_length, markAll_length, List.length_replicate]
  congr 1
  apply List.filter_congr
  intro t htmem
  have ht : t < g.n_unitigs := List.mem_range.mp htmem
  rw [markAll_getD _ _ _ _ _ (by simpa using ht)]
  have hrep : (List.replicate g.n_unitigs false).getD t false = false := by
    simp [List.getD_eq_getElem?_getD, List.getElem?_replicate, ht]
  rw [hrep, Bool.false_or]
  rcases h : decide (hasLivePred g choices t) with _ | _
  · have hnot : ¬ hasLivePred g choices t := of_decide_eq_false h
    rw [List.any_eq_false]
    intro v hv
    intro hcontra
    rw [List.any_eq_true] at hcontra
    obtain ⟨u, hu, hcond⟩ := hcontra
    rw [Bool.and_eq_true] at hcond
    obtain ⟨hA, hB⟩ := (edgeActive_iff _ _ _ _).mp hcond.1
    exact hnot ⟨v, hv, u, hu, of_decide_eq_true hcond.2, hA, hB⟩
  · have hyes : hasLivePred g choices t := of_decide_eq_true h
    obtain ⟨v, hv, u, hu, hmod, hA, hB⟩ := hyes
    rw [List.any_eq_true]
    refine ⟨v, hv, ?_⟩
    rw [List.any_eq_true]
    refine ⟨u, hu, ?_⟩
    rw [Bool.and_eq_true]
    exact ⟨(edgeActive_iff _ _ _ _).mpr ⟨hA, hB⟩, decide_eq_true hmod⟩

/-- C3: for every graph and every length-n assignment, the Evaluator returns
the number of distinct ids `t` that are the target of at least one
orientation-consistent edge under the assignment (each id counted once,
however many edges point at it), and the dummy node count is `n` minus that
score. -/
theorem C3_evaluator_counts_targets (g : DBG) (choices : List Orientation)
    (hc : choices.length = g.n_unitigs) :
    evaluate choices g =
      ((List.range g.n_unitigs).filter
        (fun t => decide (hasLivePred g choices t))).length ∧
    g.n_unitigs - evaluate choices g =
      ((List.range g.n_unitigs).filter
        (fun t => !decide (hasLivePred g choices t))).length := by
  refine ⟨evaluate_eq_filter g choices, ?_⟩
  have hsplit := length_filter_not_aux (List.range g.n_unitigs)
    (fun t => decide (hasLivePred g choices t))
  rw [evaluate_eq_filter g choices]
  simp only [List.length_range] at hsplit
  omega

theorem C3_witness :
    evaluate [Orientation.Forward] (buildTotal [[Base.A]] 2) =
      ((List.range (buildTotal [[Base.A]] 2).n_unitigs).filter
        (fun t => decide (hasLivePred (buildTotal [[Base.A]] 2) [Orientation.Forward] t))).length :=
  (C3_evaluator_counts_targets (buildTotal [[Base.A]] 2) [Orientation.Forward]
    (by decide)).1

/-- C2: the graph built from any valid input is bidirected-symmetric: in the
doubled representation, node `u` occurs in the adjacency list of `v` exactly
as often as `twin v` occurs in the adjacency list of `twin u` (so every edge
`(from, to, o_f, o_t)` has its flipped reverse counterpart with the same
multiplicity). -/
theorem C2_edge_symmetry (seqs : List (List Base)) (k : Nat) (g : DBG)
    (hb : DBG.build seqs k = some g) (v u : Nat)
    (hv : v < 2 * g.n_unitigs) (hu : u < 2 * g.n_unitigs) :
    countOcc u (outAt g v) = countOcc (g.twin v) (outAt g (g.twin u)) := by
  have hg := build_eq_some seqs k g hb
  subst hg
  rw [buildTotal_n] at hv hu
  have hn1 : 1 ≤ seqs.length := by omega
  have htwin : ∀ w, w < 2 * seqs.length → (buildTotal seqs k).twin w =
      if w < seqs.length then w + seqs.length else w - seqs.length := by
    intro w hw
    show twinN (buildTotal seqs k).n_unitigs w = _
    rw [buildTotal_n]
    unfold twinN
    by_cases hwn : w < seqs.length
    · rw [if_pos hwn]
      exact Nat.mod_eq_of_lt (by omega)
    · rw [if_neg hwn, Nat.mod_eq_sub_mod (by omega)]
      have heq : w + seqs.length - 2 * seqs.length = w - seqs.length := by omega
      rw [heq]
      exact Nat.mod_eq_of_lt (by omega)
  rw [htwin v hv, htwin u hu]
  by_cases hvn : v < seqs.length <;> by_cases hun : u < seqs.length
  · -- v < n, u < n
    rw [if_pos hvn, if_pos hun]
    rw [buildTotal_out, buildTotal_out]
    rw [if_pos hvn]
    rw [if_neg (by omega : ¬ u + seqs.length < seqs.length),
      if_pos (by omega : u + seqs.length < 2 * seqs.length)]
    have e1 : u + seqs.length - seqs.length = u := by omega
    rw [e1]
    rw [countOcc_fwdTargets, countOcc_revTargets]
    rw [if_neg (fun h => by omega : ¬ (seqs.length ≤ u ∧
      u - seqs.length < seqs.length ∧ lastK k (seqs.getD (u - seqs.length) []) =
        firstK k (reverseComplement (seqs.getD v []))))]
    rw [if_neg (fun h => by omega : ¬ (v + seqs.length < seqs.length ∧
      firstK k (seqs.getD (v + seqs.length) []) =
        lastK k (reverseComplement (seqs.getD u []))))]
    rw [if_congr (show (u < seqs.length ∧
        firstK k (seqs.getD u []) = lastK k (seqs.getD v [])) ↔
        (seqs.length ≤ v + seqs.length ∧
          v + seqs.length - seqs.length < seqs.length ∧
          lastK k (seqs.getD v []) = firstK k (seqs.getD u [])) from by
      constructor
      · rintro ⟨h1, h2⟩
        exact ⟨by omega, by omega, h2.symm⟩
      · rintro ⟨h1, h2, h3⟩
        exact ⟨hun, h3.symm⟩) rfl rfl]
    simp
  · -- v < n, n ≤ u
    rw [if_pos hvn, if_neg hun]
    rw [buildTotal_out, buildTotal_out]
    rw [if_pos hvn]
    rw [if_pos (by omega : u - seqs.length < seqs.length)]
    rw [countOcc_fwdTargets, countOcc_fwdTargets]
    rw [if_neg (fun h => by omega : ¬ (u < seqs.length ∧
      firstK k (seqs.getD u []) = lastK k (seqs.getD v [])))]
    rw [if_neg (fun h => by omega : ¬ (v + seqs.length < seqs.length ∧
      firstK k (seqs.getD (v + seqs.length) []) =
        lastK k (seqs.getD (u - seqs.length) [])))]
    rw [if_congr (show (seqs.length ≤ u ∧ u - seqs.length < seqs.length ∧
        lastK k (seqs.getD (u - seqs.length) []) =
          firstK k (reverseComplement (seqs.getD v []))) ↔
        (seqs.length ≤ v + seqs.length ∧
          v + seqs.length - seqs.length < seqs.length ∧
          lastK k (seqs.getD v []) =
            firstK k (reverseComplement (seqs.getD (u - seqs.length) []))) from by
      constructor
      · rintro ⟨h1, h2, h3⟩
        rw [firstK_rc] at h3 ⊢
        exact ⟨by omega, by omega, (rc_eq_comm _ _).mp h3⟩
      · rintro ⟨h1, h2, h3⟩
        rw [firstK_rc] at h3 ⊢
        exact ⟨by omega, by omega, (rc_eq_comm _ _).mp h3⟩) rfl rfl]
    simp
  · -- n ≤ v, u < n
    rw [if_neg hvn, if_pos hun]
    rw [buildTotal_out, buildTotal_out]
    rw [if_neg hvn, if_pos hv]
    rw [if_neg (by omega : ¬ u + seqs.length < seqs.length),
      if_pos (by omega : u + seqs.length < 2 * seqs.length)]
    have e1 : u + seqs.length - seqs.length = u := by omega
    rw [e1]
    rw [countOcc_revTargets, countOcc_revTargets]
    rw [if_neg (fun h => by omega : ¬ (seqs.length ≤ u ∧
      u - seqs.length < seqs.length ∧ lastK k (seqs.getD (u - seqs.length) []) =
        firstK k (seqs.getD (v - seqs.length) [])))]
    rw [if_neg (fun h => by omega : ¬ (seqs.length ≤ v - seqs.length ∧
      v - seqs.length - seqs.length < seqs.length ∧
      lastK k (seqs.getD (v - seqs.length - seqs.length) []) =
        firstK k (seqs.getD u [])))]
    rw [if_congr (show (u < seqs.length ∧ firstK k (seqs.getD u []) =
        lastK k (reverseComplement (seqs.getD (v - seqs.length) []))) ↔
        (v - seqs.length < seqs.length ∧
          firstK k (seqs.getD (v - seqs.length) []) =
            lastK k (reverseComplement (seqs.getD u []))) from by
      constructor
      · rintro ⟨h1, h2⟩
        rw [lastK_rc] at h2 ⊢
        exact ⟨by omega, (rc_eq_comm _ _).mp h2⟩
      · rintro ⟨h1, h2⟩
        rw [lastK_rc] at h2 ⊢
        exact ⟨hun, (rc_eq_comm _ _).mp h2⟩) rfl rfl]
  · -- n ≤ v, n ≤ u
    rw [if_neg hvn, if_neg hun]
    rw [buildTotal_out, buildTotal_out]
    rw [if_neg hvn, if_pos hv]
    rw [if_pos (by omega : u - seqs.length < seqs.length)]
    rw [countOcc_revTargets, countOcc_fwdTargets]
    rw [if_neg (fun h => by omega : ¬ (u < seqs.length ∧
      firstK k (seqs.getD u []) =
        lastK k (reverseComplement (seqs.getD (v - seqs.length) []))))]
    rw [if_neg (fun h => by omega : ¬ (seqs.length ≤ v - seqs.length ∧
      v - seqs.length - seqs.length < seqs.length ∧
      lastK k (seqs.getD (v - seqs.length - seqs.length) []) =
        firstK k (reverseComplement (seqs.getD (u - seqs.length) []))))]
    rw [if_congr (show (seqs.length ≤ u ∧ u - seqs.length < seqs.length ∧
        lastK k (seqs.getD (u - seqs.length) []) =
          firstK k (seqs.getD (v - seqs.length) [])) ↔
        (v - seqs.length < seqs.length ∧
          firstK k (seqs.getD (v - seqs.length) []) =
            lastK k (seqs.getD (u - seqs.length) [])) from by
      constructor
      · rintro ⟨h1, h2, h3⟩
        exact ⟨by omega, h3.symm⟩
      · rintro ⟨h1, h2⟩
        exact ⟨by omega, by omega, h2.symm⟩) rfl rfl]
    simp

theorem C2_witness :
    countOcc 1 (outAt (buildTotal [[Base.T,Base.C,Base.G], [Base.C,Base.G,Base.A]] 3) 0) =
      countOcc ((buildTotal [[Base.T,Base.C,Base.G], [Base.C,Base.G,Base.A]] 3).twin 0)
        (outAt (buildTotal [[Base.T,Base.C,Base.G], [Base.C,Base.G,Base.A]] 3)
          ((buildTotal [[Base.T,Base.C,Base.G], [Base.C,Base.G,Base.A]] 3).twin 1)) :=
  C2_edge_symmetry [[Base.T,Base.C,Base.G], [Base.C,Base.G,Base.A]] 3 _ rfl 0 1
    (by decide) (by decide)

/-- C10: for every graph with at least one unitig and every node of the
doubled node space, `twin` is an involution exchanging the two halves
(`twin (twin v) = v`, `twin v ≠ v`, `v < n ↔ twin v ≥ n`); for zero unitigs
the Rust `twin` reduces modulo zero and panics (`twinChecked` is `none`). -/
theorem C10_twin_involution (g : DBG) (v : Nat) :
    (1 ≤ g.n_unitigs → v < 2 * g.n_unitigs →
      g.twin (g.twin v) = v ∧ g.twin v ≠ v ∧
        (v < g.n_unitigs ↔ g.n_unitigs ≤ g.twin v)) ∧
    (g.n_unitigs = 0 → g.twinChecked v = none) := by
  constructor
  · intro h1 h2
    have htwin : ∀ w, w < 2 * g.n_unitigs →
        g.twin w = if w < g.n_unitigs then w + g.n_unitigs else w - g.n_unitigs := by
      intro w hw
      by_cases hwn : w < g.n_unitigs
      · rw [if_pos hwn]
        exact Nat.mod_eq_of_lt (by omega)
      · rw [if_neg hwn]
        show (w + g.n_unitigs) % (2 * g.n_unitigs) = w - g.n_unitigs
        rw [Nat.mod_eq_sub_mod (by omega)]
        have heq : w + g.n_unitigs - 2 * g.n_unitigs = w - g.n_unitigs := by omega
        rw [heq]
        exact Nat.mod_eq_of_lt (by omega)
    by_cases hv : v < g.n_unitigs
    · have ht : g.twin v = v + g.n_unitigs := by rw [htwin v h2, if_pos hv]
      have htt : g.twin (g.twin v) = v := by
        rw [ht, htwin (v + g.n_unitigs) (by omega), if_neg (by omega)]
        omega
      refine ⟨htt, by omega, by omega⟩
    · have ht : g.twin v = v - g.n_unitigs := by rw [htwin v h2, if_neg hv]
      have htt : g.twin (g.twin v) = v := by
        rw [ht, htwin (v - g.n_unitigs) (by omega), if_pos (by omega)]
        omega
      refine ⟨htt, by omega, by omega⟩
  · intro h0
    simp [DBG.twinChecked, h0]

theorem C10_witness :
    (buildTotal [[Base.A]] 2).twin ((buildTotal [[Base.A]] 2).twin 1) = 1 ∧
      (buildTotal [[Base.A]] 2).twin 1 ≠ 1 := by
  have h := (C10_twin_involution (buildTotal [[Base.A]] 2) 1).1 (by decide) (by decide)
  exact ⟨h.1, h.2.1⟩

/-- C8: the empty input is not an error for any k ≥ 2: the pipeline returns
an empty assignment and the Evaluator scores it 0. -/
theorem C8_empty_input (k : Nat) (hk : 2 ≤ k) :
    optimize_unitig_orientation [] k = some [] ∧
      evaluate [] (buildTotal [] k) = 0 :=
  ⟨rfl, rfl⟩

theorem C8_witness :
    optimize_unitig_orientation [] 2 = some [] ∧
      evaluate [] (buildTotal [] 2) = 0 :=
  C8_empty_input 2 (by decide)

/-- C9: the Assignor is deterministic: it is a function of the adjacency
structure it reads (`out_edges` and `n_unitigs`) alone, so two runs on the
same graph — and even on two graph values agreeing on those fields — produce
identical assignment arrays. -/
theorem C9_assignor_deterministic (g g' : DBG)
    (hout : g.out_edges = g'.out_edges) (hn : g.n_unitigs = g'.n_unitigs) :
    pick_orientations_with_non_switching_bfs g =
      pick_orientations_with_non_switching_bfs g' := by
  unfold pick_orientations_with_non_switching_bfs
  rw [hout, hn]

theorem C9_witness :
    pick_orientations_with_non_switching_bfs (buildTotal [[Base.A]] 2) =
      pick_orientations_with_non_switching_bfs
        { buildTotal [[Base.A]] 2 with in_edges := [], unitig_db := [] } :=
  C9_assignor_deterministic _ _ rfl rfl

/-- C6: on the straight-line input TCG, ATC, ATG, ACC, CCG with k = 3 the
pipeline returns one of the two globally consistent chains
(here the second: Forward, Forward, Reverse, Reverse, Reverse). -/
theorem C6_straight_line :
    optimize_unitig_orientation
        [[Base.T,Base.C,Base.G], [Base.A,Base.T,Base.C], [Base.A,Base.T,Base.G],
          [Base.A,Base.C,Base.C], [Base.C,Base.C,Base.G]] 3 =
      some [Orientation.Reverse, Orientation.Reverse, Orientation.Forward,
        Orientation.Forward, Orientation.Forward] ∨
    optimize_unitig_orientation
        [[Base.T,Base.C,Base.G], [Base.A,Base.T,Base.C], [Base.A,Base.T,Base.G],
          [Base.A,Base.C,Base.C], [Base.C,Base.C,Base.G]] 3 =
      some [Orientation.Forward, Orientation.Forward, Orientation.Reverse,
        Orientation.Reverse, Orientation.Reverse] :=
  Or.inr (by decide)

theorem bfsLoopT_cons_skip (outE : List (List Nat)) (n : Nat) (dir : Direction)
    (f v : Nat) (q : List Nat) (oris : List Orientation) (visited : List Bool)
    (tr : List (Nat × Orientation)) (hin : v % n < visited.length)
    (hvis : visited.getD (v % n) false = true) :
    bfsLoopT outE n dir (f + 1) (v :: q) oris visited tr =
      bfsLoopT outE n dir f q oris visited tr := by
  rw [bfsLoopT, if_pos hin, if_pos hvis]

theorem bfsLoopT_cons_commit (outE : List (List Nat)) (n : Nat) (dir : Direction)
    (f v : Nat) (q : List Nat) (oris : List Orientation) (visited : List Bool)
    (tr : List (Nat × Orientation)) (hin : v % n < visited.length)
    (hvis : visited.getD (v % n) false = false) :
    bfsLoopT outE n dir (f + 1) (v :: q) oris visited tr =
      bfsLoopT outE n dir f (q ++ outE.getD v [])
        (oris.set (v % n) (bfsOrient n dir v)) (visited.set (v % n) true)
        (tr ++ [(v % n, bfsOrient n dir v)]) := by
  rw [bfsLoopT, if_pos hin, if_neg (by simpa [List.getD] using hvis)]

theorem bfsLoopT_proj (outE : List (List Nat)) (n : Nat) (dir : Direction) :
    ∀ (fuel : Nat) (q : List Nat) (oris : List Orientation) (visited : List Bool)
      (tr : List (Nat × Orientation)),
      (bfsLoopT outE n dir fuel q oris visited tr).map (fun r => (r.1, r.2.1)) =
        bfsLoop outE n dir fuel q oris visited := by
  intro fuel
  induction fuel with
  | zero => intro q oris visited tr; rfl
  | succ f ih =>
    intro q oris visited tr
    match q with
    | [] => rfl
    | v :: queue =>
      by_cases hin : v % n < visited.length
      · by_cases hvis : visited.getD (v % n) false = true
        · rw [bfsLoopT_cons_skip _ _ _ _ _ _ _ _ _ hin hvis,
            bfsLoop_cons_skip _ _ _ _ _ _ _ _ hin hvis]
          exact ih _ _ _ _
        · have hvis' : visited.getD (v % n) false = false := by simpa using hvis
          rw [bfsLoopT_cons_commit _ _ _ _ _ _ _ _ _ hin hvis',
            bfsLoop_cons_commit _ _ _ _ _ _ _ _ hin hvis']
          exact ih _ _ _ _
      · rw [bfsLoopT, bfsLoop, if_neg hin, if_neg hin]
        rfl

theorem pair_mem_map_fst {i : Nat} {l : List (Nat × Orientation)} :
    i ∈ l.map Prod.fst ↔ ∃ o, (i, o) ∈ l := by
  rw [List.mem_map]
  constructor
  · rintro ⟨⟨a, b⟩, hmem, hfst⟩
    exact ⟨b, by rwa [← hfst]⟩
  · rintro ⟨o, hmem⟩
    exact ⟨(i, o), hmem, rfl⟩

theorem nodup_fst_eq {l : List (Nat × Orientation)} :
    (l.map Prod.fst).Nodup →
      ∀ p q, p ∈ l → q ∈ l → p.1 = q.1 → p.2 = q.2 := by
  induction l with
  | nil => intro _ p q hp; simp at hp
  | cons a rest ih =>
    intro h p q hp hq heq
    rw [List.map_cons, List.nodup_cons] at h
    rcases List.mem_cons.mp hp with hp' | hp' <;>
      rcases List.mem_cons.mp hq with hq' | hq'
    · rw [hp', hq']
    · exfalso
      apply h.1
      rw [List.mem_map]
      exact ⟨q, hq', by rw [← heq, hp']⟩
    · exfalso
      apply h.1
      rw [List.mem_map]
      exact ⟨p, hp', by rw [heq, hq']⟩
    · exact ih h.2 p q hp' hq' heq

/-- Specification of one instrumented BFS queue run: the run appends a block
of commits whose ids are distinct, were unvisited on entry and are visited on
exit; the visited array grows by exactly those ids; the orientation array
carries each commit's value at its id and is untouched elsewhere. -/
theorem bfsLoopT_spec (outE : List (List Nat)) (n : Nat) (dir : Direction) :
    ∀ (fuel : Nat) (q : List Nat) (oris : List Orientation) (visited : List Bool)
      (tr : List (Nat × Orientation)) (oris' : List Orientation)
      (visited' : List Bool) (tr' : List (Nat × Orientation)),
      bfsLoopT outE n dir fuel q oris visited tr = some (oris', visited', tr') →
      visited.length = n → oris.length = n →
      ∃ Δ, tr' = tr ++ Δ ∧
        (∀ p ∈ Δ, p.1 < n ∧ visited.getD p.1 false = false ∧
          visited'.getD p.1 false = true) ∧
        (Δ.map Prod.fst).Nodup ∧
        (∀ i, visited'.getD i false =
          (visited.getD i false || decide (i ∈ Δ.map Prod.fst))) ∧
        (∀ p ∈ Δ, oris'.getD p.1 Orientation.Forward = p.2) ∧
        (∀ i, i ∉ Δ.map Prod.fst →
          oris'.getD i Orientation.Forward = oris.getD i Orientation.Forward) ∧
        visited'.length = n ∧ oris'.length = n := by
  intro fuel
  induction fuel with
  | zero =>
    intro q oris visited tr oris' visited' tr' heq
    exact absurd heq (by rw [bfsLoopT]; simp)
  | succ f ih =>
    intro q oris visited tr oris' visited' tr' heq hlv hlo
    match q with
    | [] =>
      rw [bfsLoopT] at heq
      obtain ⟨h1, h2, h3⟩ : oris = oris' ∧ visited = visited' ∧ tr = tr' := by
        have := Option.some.inj heq
        exact ⟨congrArg (·.1) this, congrArg (·.2.1) this, congrArg (·.2.2) this⟩
      subst h1; subst h2; subst h3
      exact ⟨[], by simp, by simp, by simp, by simp, by simp, by simp, hlv, hlo⟩
    | v :: queue =>
      by_cases hin : v % n < visited.length
      · by_cases hvis : visited.getD (v % n) false = true
        · rw [bfsLoopT_cons_skip _ _ _ _ _ _ _ _ _ hin hvis] at heq
          exact ih _ _ _ _ _ _ _ heq hlv hlo
        · have hvis' : visited.getD (v % n) false = false := by simpa using hvis
          rw [bfsLoopT_cons_commit _ _ _ _ _ _ _ _ _ hin hvis'] at heq
          obtain ⟨Δ, htr, hunv, hnd, hchar, hval, huntouch, hlv', hlo'⟩ :=
            ih _ _ _ _ _ _ _ heq (by rw [List.length_set]; exact hlv)
              (by rw [List.length_set]; exact hlo)
          have hvn : v % n < n := by
            have h2 := hin
            rw [hlv] at h2
            exact h2
          have hnotin : v % n ∉ Δ.map Prod.fst := by
            intro hmem
            obtain ⟨o, ho⟩ := pair_mem_map_fst.mp hmem
            have hthis := (hunv _ ho).2.1
            rw [getD_set_self visited (v % n) true false hin] at hthis
            simp at hthis
          refine ⟨(v % n, bfsOrient n dir v) :: Δ, by simpa using htr, ?_, ?_, ?_, ?_, ?_, hlv', hlo'⟩
          · intro p hp
            rcases List.mem_cons.mp hp with hp' | hp'
            · subst hp'
              refine ⟨hvn, hvis', ?_⟩
              rw [hchar (v % n)]
              rw [getD_set_self _ _ _ _ hin]
              simp
            · obtain ⟨h1, h2, h3⟩ := hunv p hp'
              refine ⟨h1, ?_, h3⟩
              by_cases hpv : p.1 = v % n
              · rw [hpv, getD_set_self _ _ _ _ hin] at h2
                exact absurd h2 (by simp)
              · rwa [getD_set_ne _ _ _ _ _ (fun h => hpv h.symm)] at h2
          · simp only [List.map_cons, List.nodup_cons]
            exact ⟨hnotin, hnd⟩
          · intro i
            rw [hchar i]
            by_cases hiv : i = v % n
            · subst hiv
              rw [getD_set_self _ _ _ _ hin, hvis']
              simp
            · rw [getD_set_ne _ _ _ _ _ (fun h => hiv h.symm)]
              simp only [List.map_cons, List.mem_cons]
              by_cases him : i ∈ Δ.map Prod.fst
              · simp [him]
              · simp [him, hiv]
          · intro p hp
            rcases List.mem_cons.mp hp with hp' | hp'
            · subst hp'
              rw [huntouch _ hnotin]
              exact getD_set_self _ _ _ _ (by rw [hlo]; exact hvn)
            · exact hval p hp'
          · intro i hi
            have hi1 : i ≠ v % n := by
              intro h
              exact hi (by rw [h]; simp)
            have hi2 : i ∉ Δ.map Prod.fst := by
              intro h
              exact hi (by simp [h])
            rw [huntouch _ hi2, getD_set_ne _ _ _ _ _ (fun h => hi1 h.symm)]
      · rw [bfsLoopT, if_neg hin] at heq
        obtain ⟨h1, h2, h3⟩ : oris = oris' ∧ visited = visited' ∧ tr = tr' := by
          have := Option.some.inj heq
          exact ⟨congrArg (·.1) this, congrArg (·.2.1) this, congrArg (·.2.2) this⟩
        subst h1; subst h2; subst h3
        exact ⟨[], by simp, by simp, by simp, by simp, by simp, by simp, hlv, hlo⟩

theorem bfsT_proj (root : Nat) (dir : Direction) (oris : List Orientation)
    (visited : List Bool) (outE : List (List Nat)) (n : Nat)
    (tr : List (Nat × Orientation)) :
    ((bfsT root dir oris visited outE n tr).1,
      (bfsT root dir oris visited outE n tr).2.1) =
      bfs root dir oris visited outE n := by
  obtain ⟨r, hr, hbfs⟩ := bfs_completes root dir oris visited outE n
  have hproj := bfsLoopT_proj outE n dir (stdFuel outE visited 1)
    [if dir = Direction.Backward then twinN n root else root] oris visited tr
  rcases ht : bfsLoopT outE n dir (stdFuel outE visited 1)
      [if dir = Direction.Backward then twinN n root else root] oris visited tr
    with _ | t
  · rw [ht] at hproj
    rw [hr] at hproj
    simp at hproj
  · rw [ht, hr] at hproj
    have htr : (t.1, t.2.1) = r := by simpa using hproj
    have hbfsT : bfsT root dir oris visited outE n tr = t := by
      show (bfsLoopT outE n dir (stdFuel outE visited 1)
        [if dir = Direction.Backward then twinN n root else root]
        oris visited tr).getD (oris, visited, tr) = t
      rw [ht]
      rfl
    rw [hbfsT, htr, hbfs]

/-- One BFS of the Assignor from an unvisited root `v < n` commits a block of
previously unvisited, pairwise-distinct ids; the root itself is committed
with orientation Forward (in both walking directions), the visited array
grows by exactly the committed ids, and the orientation array records each
commit and is untouched elsewhere. -/
theorem bfsT_root_run (v : Nat) (dir : Direction) (oris : List Orientation)
    (visited : List Bool) (outE : List (List Nat)) (n : Nat)
    (tr : List (Nat × Orientation)) (hv : v < n) (hlv : visited.length = n)
    (hlo : oris.length = n) (hunvis : visited.getD v false = false) :
    ∃ oris' visited' Δ,
      bfsT v dir oris visited outE n tr = (oris', visited', tr ++ Δ) ∧
      (v, Orientation.Forward) ∈ Δ ∧
      (Δ.map Prod.fst).Nodup ∧
      (∀ p ∈ Δ, p.1 < n ∧ visited.getD p.1 false = false) ∧
      (∀ i, visited'.getD i false =
        (visited.getD i false || decide (i ∈ Δ.map Prod.fst))) ∧
      (∀ p ∈ Δ, oris'.getD p.1 Orientation.Forward = p.2) ∧
      (∀ i, i ∉ Δ.map Prod.fst →
        oris'.getD i Orientation.Forward = oris.getD i Orientation.Forward) ∧
      visited'.length = n ∧ oris'.length = n := by
  have hn1 : 1 ≤ n := by omega
  have hrn : (if dir = Direction.Backward then twinN n v else v) % n = v := by
    rcases dir
    · rw [if_neg (by intro h; exact Direction.noConfusion h)]
      exact Nat.mod_eq_of_lt hv
    · rw [if_pos rfl]
      have h1 : twinN n v = v + n := Nat.mod_eq_of_lt (by omega)
      rw [h1, Nat.add_mod_right]
      exact Nat.mod_eq_of_lt hv
  have ho0 : bfsOrient n dir (if dir = Direction.Backward then twinN n v else v) =
      Orientation.Forward := by
    rcases dir
    · rw [if_neg (by intro h; exact Direction.noConfusion h)]
      unfold bfsOrient
      rw [decide_eq_true hv]
    · rw [if_pos rfl]
      have h1 : twinN n v = v + n := Nat.mod_eq_of_lt (by omega)
      unfold bfsOrient
      rw [h1, decide_eq_false (by omega)]
  obtain ⟨r, hr, hbfs⟩ := bfs_completes v dir oris visited outE n
  have hproj := bfsLoopT_proj outE n dir (stdFuel outE visited 1)
    [if dir = Direction.Backward then twinN n v else v] oris visited tr
  rcases ht : bfsLoopT outE n dir (stdFuel outE visited 1)
      [if dir = Direction.Backward then twinN n v else v] oris visited tr
    with _ | t
  · rw [ht, hr] at hproj
    simp at hproj
  · have hbfsT : bfsT v dir oris visited outE n tr = t := by
      show (bfsLoopT outE n dir (stdFuel outE visited 1)
        [if dir = Direction.Backward then twinN n v else v]
        oris visited tr).getD (oris, visited, tr) = t
      rw [ht]
      rfl
    obtain ⟨Δ, htr, hunv, hnd, hchar, hval, huntouch, hlv', hlo'⟩ :=
      bfsLoopT_spec outE n dir _ _ _ _ _ _ _ _ ht hlv hlo
    have hstep : bfsLoopT outE n dir (stdFuel outE visited 1)
        [if dir = Direction.Backward then twinN n v else v] oris visited tr =
        bfsLoopT outE n dir (countFalse visited * (outTotalLen outE + 1) + 1)
          ([] ++ outE.getD (if dir = Direction.Backward then twinN n v else v) [])
          (oris.set v Orientation.Forward) (visited.set v true)
          (tr ++ [(v, Orientation.Forward)]) := by
      have hin0 : (if dir = Direction.Backward then twinN n v else v) % n <
          visited.length := by
        rw [hrn, hlv]
        exact hv
      have hvis0 : visited.getD
          ((if dir = Direction.Backward then twinN n v else v) % n) false = false := by
        rw [hrn]
        exact hunvis
      have h := bfsLoopT_cons_commit outE n dir
        (countFalse visited * (outTotalLen outE + 1) + 1)
        (if dir = Direction.Backward then twinN n v else v) [] oris visited tr
        hin0 hvis0
      rw [hrn, ho0] at h
      exact h
    rw [hstep] at ht
    obtain ⟨Δ2, htr2, _⟩ := bfsLoopT_spec outE n dir _ _ _ _ _ _ _ _ ht
      (by rw [List.length_set]; exact hlv) (by rw [List.length_set]; exact hlo)
    have hΔ : Δ = (v, Orientation.Forward) :: Δ2 := by
      have h3 : tr ++ Δ = tr ++ ((v, Orientation.Forward) :: Δ2) := by
        rw [← htr, htr2]
        simp
      exact List.append_cancel_left h3
    refine ⟨t.1, t.2.1, Δ, ?_, ?_, hnd, ?_, hchar, hval, huntouch, hlv', hlo'⟩
    · rw [hbfsT, ← htr]
    · rw [hΔ]
      exact List.mem_cons_self _ _
    · intro p hp
      obtain ⟨h1, h2, _⟩ := hunv p hp
      exact ⟨h1, h2⟩

/-- Specification of one root step of the instrumented Assignor: the state
invariants (visited equals traced, one value per traced id, array agrees with
the trace) are preserved, visited ids stay visited, the root ends visited,
and the trace only grows. The root is the only id that can be committed
twice, once by each direction, both times with orientation Forward. -/
theorem pickStepT_spec (outE : List (List Nat)) (n : Nat)
    (st : List Orientation × List Bool × List (Nat × Orientation)) (v : Nat)
    (hv : v < n) (hlo : st.1.length = n) (hlv : st.2.1.length = n)
    (hchar : ∀ i, st.2.1.getD i false = true ↔ ∃ o, (i, o) ∈ st.2.2)
    (hval : ∀ i o1 o2, (i, o1) ∈ st.2.2 → (i, o2) ∈ st.2.2 → o1 = o2)
    (horis : ∀ i o, (i, o) ∈ st.2.2 → st.1.getD i Orientation.Forward = o) :
    ∀ st', pickStepT outE n st v = st' →
      st'.1.length = n ∧ st'.2.1.length = n ∧
      (∀ i, st'.2.1.getD i false = true ↔ ∃ o, (i, o) ∈ st'.2.2) ∧
      (∀ i o1 o2, (i, o1) ∈ st'.2.2 → (i, o2) ∈ st'.2.2 → o1 = o2) ∧
      (∀ i o, (i, o) ∈ st'.2.2 → st'.1.getD i Orientation.Forward = o) ∧
      (∀ i, st.2.1.getD i false = true → st'.2.1.getD i false = true) ∧
      st'.2.1.getD v false = true ∧
      (∀ p ∈ st.2.2, p ∈ st'.2.2) := by
  intro st' hst'
  by_cases hg : st.2.1.getD v false = true
  · have hid : pickStepT outE n st v = st := by
      unfold pickStepT
      rw [if_pos hg]
    rw [hid] at hst'
    subst hst'
    exact ⟨hlo, hlv, hchar, hval, horis, fun i h => h, hg, fun p hp => hp⟩
  · have hg' : st.2.1.getD v false = false := by simpa using hg
    obtain ⟨o1, v1, Δ1, hr1, hmem1, hnd1, hunv1, hchar1, hval1, hunt1, hlv1, hlo1⟩ :=
      bfsT_root_run v Direction.Forward st.1 st.2.1 outE n st.2.2 hv hlv hlo hg'
    have hg2 : (v1.set v false).getD v false = false :=
      getD_set_self v1 v false false (by rw [hlv1]; exact hv)
    obtain ⟨o2, v2, Δ2, hr2, hmem2, hnd2, hunv2, hchar2, hval2, hunt2, hlv2, hlo2⟩ :=
      bfsT_root_run v Direction.Backward o1 (v1.set v false) outE n
        (st.2.2 ++ Δ1) hv (by rw [List.length_set]; exact hlv1) hlo1 hg2
    have hstep : pickStepT outE n st v = (o2, v2, (st.2.2 ++ Δ1) ++ Δ2) := by
      unfold pickStepT
      rw [if_neg hg]
      show bfsT v Direction.Backward
        (bfsT v Direction.Forward st.1 st.2.1 outE n st.2.2).1
        ((bfsT v Direction.Forward st.1 st.2.1 outE n st.2.2).2.1.set v false)
        outE n (bfsT v Direction.Forward st.1 st.2.1 outE n st.2.2).2.2 = _
      rw [hr1]
      exact hr2
    rw [hstep] at hst'
    subst hst'
    -- helper facts
    have hstv : ∀ o, (v, o) ∈ st.2.2 → False := by
      intro o ho
      have := (hchar v).mpr ⟨o, ho⟩
      rw [hg'] at this
      simp at this
    have hD1v : ∀ i o, (i, o) ∈ Δ1 → i = v → o = Orientation.Forward := by
      intro i o h hiv
      exact nodup_fst_eq hnd1 (i, o) (v, Orientation.Forward) h hmem1 (by rw [hiv])
    have hD2v : ∀ i o, (i, o) ∈ Δ2 → i = v → o = Orientation.Forward := by
      intro i o h hiv
      exact nodup_fst_eq hnd2 (i, o) (v, Orientation.Forward) h hmem2 (by rw [hiv])
    have hdisj_st_D1 : ∀ i o1 o2, (i, o1) ∈ st.2.2 → (i, o2) ∈ Δ1 → False := by
      intro i a b ha hb
      have h1 := (hunv1 (i, b) hb).2
      have h2 := (hchar i).mpr ⟨a, ha⟩
      rw [h1] at h2
      simp at h2
    have hD2_unvis : ∀ i o, (i, o) ∈ Δ2 → i ≠ v →
        st.2.1.getD i false = false ∧ i ∉ Δ1.map Prod.fst := by
      intro i o h hiv
      have h1 := (hunv2 (i, o) h).2
      rw [getD_set_ne _ _ _ _ _ (fun hh => hiv hh.symm)] at h1
      rw [hchar1 i] at h1
      constructor
      · rcases hb : st.2.1.getD i false with _ | _
        · rfl
        · rw [hb] at h1
          simp at h1
      · intro hmem
        rw [decide_eq_true hmem] at h1
        simp at h1
    have hdisj_st_D2 : ∀ i o1 o2, (i, o1) ∈ st.2.2 → (i, o2) ∈ Δ2 → False := by
      intro i a b ha hb
      by_cases hiv : i = v
      · exact hstv a (hiv ▸ ha)
      · have h1 := (hD2_unvis i b hb hiv).1
        have h2 := (hchar i).mpr ⟨a, ha⟩
        rw [h1] at h2
        simp at h2
    have hdisj_D1_D2 : ∀ i o1 o2, (i, o1) ∈ Δ1 → (i, o2) ∈ Δ2 → i ≠ v → False := by
      intro i a b ha hb hiv
      exact (hD2_unvis i b hb hiv).2 (pair_mem_map_fst.mpr ⟨a, ha⟩)
    refine ⟨hlo2, hlv2, ?_, ?_, ?_, ?_, ?_, ?_⟩
    · -- visited characterizes the trace
      intro i
      rw [hchar2 i]
      by_cases hiv : i = v
      · subst hiv
        rw [getD_set_self v1 i false false (by rw [hlv1]; exact hv)]
        constructor
        · intro _
          exact ⟨Orientation.Forward, by simp [hmem2]⟩
        · intro _
          rw [decide_eq_true (pair_mem_map_fst.mpr ⟨Orientation.Forward, hmem2⟩)]
          simp
      · rw [getD_set_ne _ _ _ _ _ (fun hh => hiv hh.symm), hchar1 i]
        constructor
        · intro h
          rcases Bool.or_eq_true_iff.mp h with h' | h'
          · rcases Bool.or_eq_true_iff.mp h' with h'' | h''
            · obtain ⟨o, ho⟩ := (hchar i).mp h''
              exact ⟨o, by simp [ho]⟩
            · obtain ⟨o, ho⟩ := pair_mem_map_fst.mp (of_decide_eq_true h'')
              exact ⟨o, by simp [ho]⟩
          · obtain ⟨o, ho⟩ := pair_mem_map_fst.mp (of_decide_eq_true h')
            exact ⟨o, by simp [ho]⟩
        · rintro ⟨o, ho⟩
          rcases List.mem_append.mp ho with h' | h'
          · rcases List.mem_append.mp h' with h'' | h''
            · rw [(hchar i).mpr ⟨o, h''⟩]
              simp
            · rw [decide_eq_true (pair_mem_map_fst.mpr ⟨o, h''⟩)]
              simp
          · rw [decide_eq_true (pair_mem_map_fst.mpr ⟨o, h'⟩)]
            simp
    · -- value consistency
      intro i a b ha hb
      rcases List.mem_append.mp ha with ha' | ha' <;>
        rcases List.mem_append.mp hb with hb' | hb'
      · rcases List.mem_append.mp ha' with ha'' | ha'' <;>
          rcases List.mem_append.mp hb' with hb'' | hb''
        · exact hval i a b ha'' hb''
        · exact (hdisj_st_D1 i a b ha'' hb'').elim
        · exact (hdisj_st_D1 i b a hb'' ha'').elim
        · exact nodup_fst_eq hnd1 (i, a) (i, b) ha'' hb'' rfl
      · rcases List.mem_append.mp ha' with ha'' | ha''
        · exact (hdisj_st_D2 i a b ha'' hb').elim
        · by_cases hiv : i = v
          · rw [hD1v i a ha'' hiv, hD2v i b hb' hiv]
          · exact (hdisj_D1_D2 i a b ha'' hb' hiv).elim
      · rcases List.mem_append.mp hb' with hb'' | hb''
        · exact (hdisj_st_D2 i b a hb'' ha').elim
        · by_cases hiv : i = v
          · rw [hD2v i a ha' hiv, hD1v i b hb'' hiv]
          · exact (hdisj_D1_D2 i b a hb'' ha' hiv).elim
      · exact nodup_fst_eq hnd2 (i, a) (i, b) ha' hb' rfl
    · -- final array agrees with every commit
      intro i o ho
      rcases List.mem_append.mp ho with h' | h'
      · rcases List.mem_append.mp h' with h'' | h''
        · -- old commit: untouched by both runs
          have hni1 : i ∉ Δ1.map Prod.fst := by
            intro hmem
            obtain ⟨b, hbmem⟩ := pair_mem_map_fst.mp hmem
            exact hdisj_st_D1 i o b h'' hbmem
          have hni2 : i ∉ Δ2.map Prod.fst := by
            intro hmem
            obtain ⟨b, hbmem⟩ := pair_mem_map_fst.mp hmem
            exact hdisj_st_D2 i o b h'' hbmem
          rw [hunt2 i hni2, hunt1 i hni1]
          exact horis i o h''
        · -- commit of the forward run
          by_cases hiv : i = v
          · subst hiv
            have hoF : o = Orientation.Forward := hD1v i o h'' rfl
            have h2 := hval2 (i, Orientation.Forward) hmem2
            rw [hoF]
            exact h2
          · have hni2 : i ∉ Δ2.map Prod.fst := by
              intro hmem
              obtain ⟨b, hbmem⟩ := pair_mem_map_fst.mp hmem
              exact hdisj_D1_D2 i o b h'' hbmem hiv
            rw [hunt2 i hni2]
            exact hval1 (i, o) h''
      · exact hval2 (i, o) h'
    · -- visited ids stay visited
      intro i hi
      have hiv : i ≠ v := by
        intro h
        rw [h, hg'] at hi
        exact Bool.false_ne_true hi
      rw [hchar2 i, getD_set_ne _ _ _ _ _ (fun hh => hiv hh.symm), hchar1 i, hi]
      simp
    · -- the root ends visited
      rw [hchar2 v]
      rw [decide_eq_true (pair_mem_map_fst.mpr ⟨Orientation.Forward, hmem2⟩)]
      simp
    · -- the trace only grows
      intro p hp
      simp [hp]

/-- Invariants of the Assignor root loop, threaded over any root list. -/
theorem pickLoopT_spec (outE : List (List Nat)) (n : Nat) :
    ∀ (l : List Nat)
      (st : List Orientation × List Bool × List (Nat × Orientation)),
      (∀ x ∈ l, x < n) → st.1.length = n → st.2.1.length = n →
      (∀ i, st.2.1.getD i false = true ↔ ∃ o, (i, o) ∈ st.2.2) →
      (∀ i o1 o2, (i, o1) ∈ st.2.2 → (i, o2) ∈ st.2.2 → o1 = o2) →
      (∀ i o, (i, o) ∈ st.2.2 → st.1.getD i Orientation.Forward = o) →
      ∀ st', pickLoopT outE n l st = st' →
        st'.1.length = n ∧ st'.2.1.length = n ∧
        (∀ i, st'.2.1.getD i false = true ↔ ∃ o, (i, o) ∈ st'.2.2) ∧
        (∀ i o1 o2, (i, o1) ∈ st'.2.2 → (i, o2) ∈ st'.2.2 → o1 = o2) ∧
        (∀ i o, (i, o) ∈ st'.2.2 → st'.1.getD i Orientation.Forward = o) ∧
        (∀ i, st.2.1.getD i false = true → st'.2.1.getD i false = true) ∧
        (∀ x ∈ l, st'.2.1.getD x false = true) := by
  intro l
  induction l with
  | nil =>
    intro st _ hlo hlv hchar hval horis st' hst'
    have : st = st' := hst'
    subst this
    exact ⟨hlo, hlv, hchar, hval, horis, fun i h => h, by simp⟩
  | cons v rest ih =>
    intro st hmem hlo hlv hchar hval horis st' hst'
    have hv : v < n := hmem v (by simp)
    obtain ⟨h1, h2, h3, h4, h5, h6, h7, _⟩ :=
      pickStepT_spec outE n st v hv hlo hlv hchar hval horis
        (pickStepT outE n st v) rfl
    have hst2 : pickLoopT outE n rest (pickStepT outE n st v) = st' := hst'
    obtain ⟨g1, g2, g3, g4, g5, g6, g7⟩ :=
      ih (pickStepT outE n st v) (fun x hx => hmem x (by simp [hx]))
        h1 h2 h3 h4 h5 st' hst2
    refine ⟨g1, g2, g3, g4, g5, fun i hi => g6 i (h6 i hi), ?_⟩
    intro x hx
    rcases List.mem_cons.mp hx with hx' | hx'
    · subst hx'
      exact g6 x h7
    · exact g7 x hx'

theorem pickStepT_proj (outE : List (List Nat)) (n : Nat)
    (st : List Orientation × List Bool × List (Nat × Orientation)) (v : Nat) :
    ((pickStepT outE n st v).1, (pickStepT outE n st v).2.1) =
      pickStep outE n (st.1, st.2.1) v := by
  unfold pickStepT pickStep
  by_cases hg : st.2.1.getD v false = true
  · rw [if_pos hg, if_pos hg]
  · rw [if_neg hg, if_neg hg]
    have h1 := bfsT_proj v Direction.Forward st.1 st.2.1 outE n st.2.2
    show ((bfsT v Direction.Backward
        (bfsT v Direction.Forward st.1 st.2.1 outE n st.2.2).1
        ((bfsT v Direction.Forward st.1 st.2.1 outE n st.2.2).2.1.set v false)
        outE n (bfsT v Direction.Forward st.1 st.2.1 outE n st.2.2).2.2).1,
      (bfsT v Direction.Backward
        (bfsT v Direction.Forward st.1 st.2.1 outE n st.2.2).1
        ((bfsT v Direction.Forward st.1 st.2.1 outE n st.2.2).2.1.set v false)
        outE n (bfsT v Direction.Forward st.1 st.2.1 outE n st.2.2).2.2).2.1) =
      bfs v Direction.Backward (bfs v Direction.Forward st.1 st.2.1 outE n).1
        ((bfs v Direction.Forward st.1 st.2.1 outE n).2.set v false) outE n
    rw [← h1]
    exact bfsT_proj v Direction.Backward _ _ outE n _

theorem pickLoopT_proj (outE : List (List Nat)) (n : Nat) :
    ∀ (l : List Nat)
      (st : List Orientation × List Bool × List (Nat × Orientation)),
      ((pickLoopT outE n l st).1, (pickLoopT outE n l st).2.1) =
        pickLoop outE n l (st.1, st.2.1) := by
  intro l
  induction l with
  | nil => intro st; rfl
  | cons v rest ih =>
    intro st
    show ((pickLoopT outE n rest (pickStepT outE n st v)).1,
        (pickLoopT outE n rest (pickStepT outE n st v)).2.1) =
      pickLoop outE n rest (pickStep outE n (st.1, st.2.1) v)
    rw [ih (pickStepT outE n st v), pickStepT_proj]

/-- C5 counterexample: on the graph built from the single sequence A with
k = 2, the Assignor commits id 0 twice (the backward pass deliberately
clears the root's visited flag and re-commits it), so an already-committed id
is re-committed, contradicting the claim as stated. Both commits write
Forward. -/
theorem C5_counterexample :
    DBG.build [[Base.A]] 2 = some (buildTotal [[Base.A]] 2) ∧
    pickTrace (buildTotal [[Base.A]] 2) =
      [(0, Orientation.Forward), (0, Orientation.Forward)] ∧
    ¬ ((pickTrace (buildTotal [[Base.A]] 2)).map Prod.fst).Nodup := by
  refine ⟨rfl, by decide, by decide⟩

/-- C5 (amended): on every finite graph, cycles and self-loops included, the
Assignor terminates (its BFS loops complete within their fuel, see
`bfsLoop_completes`), the returned array has one orientation per id, every id
is committed at least once, any two commits of the same id write the same
orientation (the only double commit is the deliberate root revisit of the
backward pass, which rewrites Forward over Forward), and the returned array
agrees with every commit. -/
theorem C5_amended_commits (g : DBG) :
    (pick_orientations_with_non_switching_bfs g).length = g.n_unitigs ∧
    (∀ i, i < g.n_unitigs → ∃ o, (i, o) ∈ pickTrace g) ∧
    (∀ i o1 o2, (i, o1) ∈ pickTrace g → (i, o2) ∈ pickTrace g → o1 = o2) ∧
    (∀ i o, (i, o) ∈ pickTrace g →
      (pick_orientations_with_non_switching_bfs g).getD i Orientation.Forward = o) := by
  obtain ⟨h1, h2, h3, h4, h5, _, h7⟩ :=
    pickLoopT_spec g.out_edges g.n_unitigs (List.range g.n_unitigs)
      (List.replicate g.n_unitigs Orientation.Forward,
        List.replicate g.n_unitigs false, [])
      (fun x hx => List.mem_range.mp hx)
      (List.length_replicate _ _) (List.length_replicate _ _)
      (by
        intro i
        constructor
        · intro hcontra
          rw [getD_replicate] at hcontra
          exact absurd hcontra Bool.false_ne_true
        · rintro ⟨o, ho⟩
          simp at ho)
      (by intro i o1 o2 h; simp at h)
      (by intro i o h; simp at h)
      (pickCoreT g.out_edges g.n_unitigs) rfl
  have hproj := pickLoopT_proj g.out_edges g.n_unitigs (List.range g.n_unitigs)
    (List.replicate g.n_unitigs Orientation.Forward,
      List.replicate g.n_unitigs false, [])
  have hpick : pick_orientations_with_non_switching_bfs g =
      (pickCoreT g.out_edges g.n_unitigs).1 := by
    show pickCore g.out_edges g.n_unitigs = _
    unfold pickCore
    rw [← hproj]
    rfl
  have htrace : pickTrace g = (pickCoreT g.out_edges g.n_unitigs).2.2 := rfl
  refine ⟨?_, ?_, ?_, ?_⟩
  · rw [hpick]
    exact h1
  · intro i hi
    rw [htrace]
    exact (h3 i).mp (h7 i (List.mem_range.mpr hi))
  · intro i o1 o2 ha hb
    rw [htrace] at ha hb
    exact h4 i o1 o2 ha hb
  · intro i o ho
    rw [htrace] at ho
    rw [hpick]
    exact h5 i o ho

theorem C5_amended_witness :
    (∃ o, (0, o) ∈ pickTrace (buildTotal [[Base.A]] 2)) ∧
      ∀ o1 o2, (0, o1) ∈ pickTrace (buildTotal [[Base.A]] 2) →
        (0, o2) ∈ pickTrace (buildTotal [[Base.A]] 2) → o1 = o2 :=
  ⟨(C5_amended_commits (buildTotal [[Base.A]] 2)).2.1 0 (by decide),
    fun o1 o2 h1 h2 =>
      (C5_amended_commits (buildTotal [[Base.A]] 2)).2.2.1 0 o1 o2 h1 h2⟩

/-- C1 counterexample: on the input TCG, CGA with k = 3, id 0 is terminal
with forced leaving orientation Forward, so the claimed root orientation is
its opposite (Reverse); but both the binary's terminal-first Assignor and the
library pipeline's Assignor commit id 0 to Forward (the root of every
propagation is oriented Forward in the code). -/
theorem C1_counterexample :
    MainRs.is_terminal (buildEdgeDBG [[Base.T,Base.C,Base.G], [Base.C,Base.G,Base.A]] 3) 0 = true ∧
    forcedLeaving (buildEdgeDBG [[Base.T,Base.C,Base.G], [Base.C,Base.G,Base.A]] 3) 0 =
      some Orientation.Forward ∧
    (MainRs.pick_orientations (buildEdgeDBG [[Base.T,Base.C,Base.G], [Base.C,Base.G,Base.A]] 3)).getD 0
        Orientation.Forward = Orientation.Forward ∧
    (pick_orientations_with_non_switching_bfs
        (buildTotal [[Base.T,Base.C,Base.G], [Base.C,Base.G,Base.A]] 3)).getD 0
        Orientation.Forward = Orientation.Forward ∧
    Orientation.Forward ≠ Orientation.flip Orientation.Forward := by
  refine ⟨by decide, by decide, by decide, by decide, by decide⟩

/-- C1 (amended): the binary's Assignor is terminal-first in iteration order
but roots every propagation Forward; the library pipeline's Assignor is not
terminal-aware; on the branch/merge scenario (four terminal fragments, two
non-terminal middles) both achieve exactly 2 predecessor-less sequences. -/
theorem C1_amended_scenario :
    (List.range 6).map (MainRs.is_terminal (buildEdgeDBG scenarioSeqs 10)) =
      [false, true, true, false, true, true] ∧
    MainRs.pick_orientations (buildEdgeDBG scenarioSeqs 10) =
      [Orientation.Reverse, Orientation.Forward, Orientation.Forward,
        Orientation.Forward, Orientation.Forward, Orientation.Forward] ∧
    scenarioSeqs.length - MainRs.evaluate
        (MainRs.pick_orientations (buildEdgeDBG scenarioSeqs 10))
        (buildEdgeDBG scenarioSeqs 10) = 2 ∧
    optimize_unitig_orientation scenarioSeqs 10 =
      some [Orientation.Forward, Orientation.Reverse, Orientation.Reverse,
        Orientation.Reverse, Orientation.Reverse, Orientation.Reverse] ∧
    scenarioSeqs.length - evaluate
        [Orientation.Forward, Orientation.Reverse, Orientation.Reverse,
          Orientation.Reverse, Orientation.Reverse, Orientation.Reverse]
        (buildTotal scenarioSeqs 10) = 2 := by
  refine ⟨by decide, by decide, by decide, by decide, by decide⟩

/-- C4 counterexample: for the single input sequence AC with k = 5 (length 2
< k - 1 = 4), nothing detects the bad length before the Boundary Index pass:
the failure is the in-range check of the boundary slices themselves
(`seqOk = false`, an out-of-range slice in Rust), it aborts the border pass
and the whole pipeline, and the embedded error carries no sequence id and no
value of k. -/
theorem C4_counterexample :
    seqOk 5 [Base.A, Base.C] = false ∧
    buildBordersChecked [[Base.A, Base.C]] 5 = none ∧
    DBG.build [[Base.A, Base.C]] 5 = none ∧
    optimize_unitig_orientation [[Base.A, Base.C]] 5 = none :=
  ⟨rfl, rfl, rfl, rfl⟩

/-- C4 (amended): a sequence shorter than k - 1 is not detected before the
Boundary Index pass; the slice bounds check inside that pass fails, aborting
the graph construction and the pipeline (a panic in Rust, `none` here),
without producing a diagnostic naming the sequence id or k. -/
theorem C4_amended (seqs : List (List Base)) (k : Nat) (s : List Base)
    (hs : s ∈ seqs) (hlen : s.length < k - 1) :
    buildBordersChecked seqs k = none ∧ DBG.build seqs k = none ∧
      optimize_unitig_orientation seqs k = none := by
  have hbad : seqOk k s = false := by
    simp only [seqOk, Bool.and_eq_false_iff, decide_eq_false_iff_not]
    omega
  have hall : ¬ (seqs.all (seqOk k) = true) := by
    intro hal
    have := List.all_eq_true.mp hal s hs
    rw [hbad] at this
    exact Bool.false_ne_true this
  have h1 : buildBordersChecked seqs k = none := by
    unfold buildBordersChecked
    rw [if_neg hall]
  have h2 : DBG.build seqs k = none := by
    unfold DBG.build
    rw [h1]
  exact ⟨h1, h2, by unfold optimize_unitig_orientation; rw [h2]; rfl⟩

theorem C4_amended_witness :
    buildBordersChecked [[Base.A, Base.C]] 5 = none ∧
      DBG.build [[Base.A, Base.C]] 5 = none ∧
      optimize_unitig_orientation [[Base.A, Base.C]] 5 = none :=
  C4_amended [[Base.A, Base.C]] 5 [Base.A, Base.C] (by simp) (by decide)

/-- C7 counterexample: for the valid input AAA, AAC with k = 3, pre-flipping
the subset F = 0 (replacing AAA by TTT) changes the score achieved by running
the Assignor and then the Evaluator from 2 to 1, refuting the claimed
invariance of the achieved score. -/
theorem C7_counterexample :
    (optimize_unitig_orientation [[Base.A,Base.A,Base.A], [Base.A,Base.A,Base.C]] 3).map
        (fun oris => evaluate oris (buildTotal [[Base.A,Base.A,Base.A], [Base.A,Base.A,Base.C]] 3)) =
      some 2 ∧
    flipInput (fun i => decide (i = 0)) [[Base.A,Base.A,Base.A], [Base.A,Base.A,Base.C]] =
      [[Base.T,Base.T,Base.T], [Base.A,Base.A,Base.C]] ∧
    (optimize_unitig_orientation [[Base.T,Base.T,Base.T], [Base.A,Base.A,Base.C]] 3).map
        (fun oris => evaluate oris (buildTotal [[Base.T,Base.T,Base.T], [Base.A,Base.A,Base.C]] 3)) =
      some 1 := by
  refine ⟨by decide, by decide, by decide⟩

theorem countOcc_ne_zero_iff (x : Nat) (l : List Nat) :
    countOcc x l ≠ 0 ↔ x ∈ l := by
  induction l with
  | nil => simp [countOcc]
  | cons y rest ih =>
    show (if y = x then 1 else 0) + countOcc x rest ≠ 0 ↔ x ∈ y :: rest
    by_cases h : y = x
    · subst h
      rw [if_pos rfl]
      constructor
      · intro _
        exact List.mem_cons_self y rest
      · intro _
        omega
    · rw [if_neg h]
      simp only [Nat.zero_add]
      rw [ih, List.mem_cons]
      constructor
      · intro hm
        exact Or.inr hm
      · rintro (hm | hm)
        · exact absurd hm.symm h
        · exact hm

theorem ite_sum_ne_zero (P Q : Prop) [Decidable P] [Decidable Q] :
    ((if P then 1 else 0) + (if Q then (1 : Nat) else 0) ≠ 0) ↔ (P ∨ Q) := by
  by_cases hP : P
  · rw [if_pos hP]
    constructor
    · intro _
      exact Or.inl hP
    · intro _
      omega
  · rw [if_neg hP]
    by_cases hQ : Q
    · rw [if_pos hQ]
      constructor
      · intro _
        exact Or.inr hQ
      · intro _
        omega
    · rw [if_neg hQ]
      constructor
      · intro h
        exact absurd rfl h
      · rintro (h | h)
        · exact absurd h hP
        · exact absurd h hQ

theorem mem_outAt_buildTotal (seqs : List (List Base)) (k u v : Nat) :
    u ∈ outAt (buildTotal seqs k) v ↔
      v < 2 * seqs.length ∧ u < 2 * seqs.length ∧
        headKey seqs k u = tailKey seqs k v := by
  rw [← countOcc_ne_zero_iff, buildTotal_out]
  by_cases h1 : v < seqs.length
  · rw [if_pos h1, countOcc_fwdTargets, ite_sum_ne_zero]
    unfold headKey tailKey
    rw [if_pos h1]
    by_cases hu : u < seqs.length
    · rw [if_pos hu]
      constructor
      · rintro (⟨_, hA⟩ | ⟨hge, _, _⟩)
        · exact ⟨by omega, by omega, hA⟩
        · omega
      · rintro ⟨_, _, hA⟩
        exact Or.inl ⟨hu, hA⟩
    · rw [if_neg hu]
      rw [firstK_rc, firstK_rc]
      constructor
      · rintro (⟨hlt, _⟩ | ⟨hge, hlt2, hA⟩)
        · exact absurd hlt hu
        · refine ⟨by omega, by omega, ?_⟩
          rw [hA, rc_rc]
      · rintro ⟨hv2, hu2, hA⟩
        refine Or.inr ⟨by omega, by omega, ?_⟩
        rw [← hA, rc_rc]
  · rw [if_neg h1]
    by_cases h2 : v < 2 * seqs.length
    · rw [if_pos h2, countOcc_revTargets, ite_sum_ne_zero]
      unfold headKey tailKey
      rw [if_neg h1]
      by_cases hu : u < seqs.length
      · rw [if_pos hu]
        constructor
        · rintro (⟨_, hA⟩ | ⟨hge, _, _⟩)
          · exact ⟨h2, by omega, hA⟩
          · omega
        · rintro ⟨_, _, hA⟩
          exact Or.inl ⟨hu, hA⟩
      · rw [if_neg hu]
        rw [firstK_rc, lastK_rc]
        constructor
        · rintro (⟨hlt, _⟩ | ⟨hge, hlt2, hA⟩)
          · exact absurd hlt hu
          · exact ⟨h2, by omega, by rw [hA]⟩
        · rintro ⟨_, hu2, hA⟩
          refine Or.inr ⟨by omega, by omega, ?_⟩
          have h3 := congrArg reverseComplement hA
          rw [rc_rc, rc_rc] at h3
          exact h3
    · rw [if_neg h2]
      constructor
      · intro hcontra
        exact absurd rfl hcontra
      · rintro ⟨hv2, _, _⟩
        omega

theorem flipInput_length (F : Nat → Bool) (seqs : List (List Base)) :
    (flipInput F seqs).length = seqs.length := by
  unfold flipInput
  rw [List.length_map, List.length_range]

theorem flipInput_getD (F : Nat → Bool) (seqs : List (List Base)) (i : Nat)
    (hi : i < seqs.length) :
    (flipInput F seqs).getD i [] =
      if F i then reverseComplement (seqs.getD i []) else seqs.getD i [] := by
  unfold flipInput
  rw [List.getD_eq_getElem?_getD, List.getElem?_map, List.getElem?_range hi]
  rfl

theorem flipChoices_length (F : Nat → Bool) (choices : List Orientation) :
    (flipChoices F choices).length = choices.length := by
  unfold flipChoices
  rw [List.length_map, List.length_range]

theorem flipChoices_getD (F : Nat → Bool) (choices : List Orientation) (i : Nat)
    (hi : i < choices.length) :
    (flipChoices F choices).getD i Orientation.Forward =
      if F i then (choices.getD i Orientation.Forward).flip
      else choices.getD i Orientation.Forward := by
  unfold flipChoices
  rw [List.getD_eq_getElem?_getD, List.getElem?_map, List.getElem?_range hi]
  rfl

theorem flipNode_lt (F : Nat → Bool) (n x : Nat) (hx : x < 2 * n) :
    flipNode F n x < 2 * n := by
  unfold flipNode
  by_cases hF : F (x % n)
  · rw [if_pos hF]
    by_cases hxn : x < n
    · rw [if_pos hxn]
      omega
    · rw [if_neg hxn]
      omega
  · rw [if_neg hF]
    exact hx

theorem flipNode_mod (F : Nat → Bool) (n x : Nat) (hx : x < 2 * n) :
    flipNode F n x % n = x % n := by
  unfold flipNode
  by_cases hF : F (x % n)
  · rw [if_pos hF]
    by_cases hxn : x < n
    · rw [if_pos hxn, Nat.add_mod_right]
    · rw [if_neg hxn]
      rw [Nat.mod_eq_of_lt (show x - n < n by omega)]
      rw [Nat.mod_eq_sub_mod (show n ≤ x by omega),
        Nat.mod_eq_of_lt (show x - n < n by omega)]
  · rw [if_neg hF]

theorem flipNode_flipNode (F : Nat → Bool) (n x : Nat) (hx : x < 2 * n) :
    flipNode F n (flipNode F n x) = x := by
  have hmod := flipNode_mod F n x hx
  by_cases hF : F (x % n)
  · by_cases hxn : x < n
    · have h1 : flipNode F n x = x + n := by
        unfold flipNode
        rw [if_pos hF, if_pos hxn]
      rw [h1]
      unfold flipNode
      rw [Nat.add_mod_right, if_pos hF, if_neg (show ¬ x + n < n by omega)]
      omega
    · have h1 : flipNode F n x = x - n := by
        unfold flipNode
        rw [if_pos hF, if_neg hxn]
      rw [h1]
      rw [h1] at hmod
      unfold flipNode
      rw [hmod, if_pos hF, if_pos (show x - n < n by omega)]
      omega
  · have h1 : flipNode F n x = x := by
      unfold flipNode
      rw [if_neg hF]
    rw [h1]
    exact h1

theorem orientation_flip_flip (o : Orientation) : o.flip.flip = o := by
  cases o <;> rfl

theorem nodeOrientation_flipNode (F : Nat → Bool) (n x : Nat) (hx : x < 2 * n) :
    nodeOrientation n (flipNode F n x) =
      if F (x % n) then (nodeOrientation n x).flip else nodeOrientation n x := by
  by_cases hF : F (x % n)
  · rw [if_pos hF]
    have h1 : flipNode F n x = if x < n then x + n else x - n := by
      unfold flipNode
      rw [if_pos hF]
    rw [h1]
    unfold nodeOrientation
    by_cases hxn : x < n
    · rw [if_pos hxn, if_pos hxn, if_neg (show ¬ x + n < n by omega)]
      rfl
    · rw [if_neg hxn, if_neg hxn, if_pos (show x - n < n by omega)]
      rfl
  · rw [if_neg hF]
    have h1 : flipNode F n x = x := by
      unfold flipNode
      rw [if_neg hF]
    rw [h1]

theorem headKey_flipNode (F : Nat → Bool) (seqs : List (List Base)) (k x : Nat)
    (hx : x < 2 * seqs.length) :
    headKey (flipInput F seqs) k (flipNode F seqs.length x) =
      headKey seqs k x := by
  have hlen := flipInput_length F seqs
  by_cases hxn : x < seqs.length
  · have hmodx : x % seqs.length = x := Nat.mod_eq_of_lt hxn
    by_cases hF : F x
    · have h1 : flipNode F seqs.length x = x + seqs.length := by
        unfold flipNode
        rw [hmodx, if_pos hF, if_pos hxn]
      rw [h1]
      unfold headKey
      rw [hlen, if_neg (show ¬ x + seqs.length < seqs.length by omega),
        if_pos hxn, Nat.add_sub_cancel]
      rw [flipInput_getD F seqs x hxn, if_pos hF, rc_rc]
    · have h1 : flipNode F seqs.length x = x := by
        unfold flipNode
        rw [hmodx, if_neg hF]
      rw [h1]
      unfold headKey
      rw [hlen, if_pos hxn, if_pos hxn]
      rw [flipInput_getD F seqs x hxn, if_neg hF]
  · have hmodx : x % seqs.length = x - seqs.length := by
      rw [Nat.mod_eq_sub_mod (by omega), Nat.mod_eq_of_lt (by omega)]
    have hxl : x - seqs.length < seqs.length := by omega
    by_cases hF : F (x - seqs.length)
    · have h1 : flipNode F seqs.length x = x - seqs.length := by
        unfold flipNode
        rw [hmodx, if_pos hF, if_neg hxn]
      rw [h1]
      unfold headKey
      rw [hlen, if_pos hxl, if_neg hxn]
      rw [flipInput_getD F seqs (x - seqs.length) hxl, if_pos hF]
    · have h1 : flipNode F seqs.length x = x := by
        unfold flipNode
        rw [hmodx, if_neg hF]
      rw [h1]
      unfold headKey
      rw [hlen, if_neg hxn, if_neg hxn]
      rw [flipInput_getD F seqs (x - seqs.length) hxl, if_neg hF]

theorem tailKey_flipNode (F : Nat → Bool) (seqs : List (List Base)) (k x : Nat)
    (hx : x < 2 * seqs.length) :
    tailKey (flipInput F seqs) k (flipNode F seqs.length x) =
      tailKey seqs k x := by
  have hlen := flipInput_length F seqs
  by_cases hxn : x < seqs.length
  · have hmodx : x % seqs.length = x := Nat.mod_eq_of_lt hxn
    by_cases hF : F x
    · have h1 : flipNode F seqs.length x = x + seqs.length := by
        unfold flipNode
        rw [hmodx, if_pos hF, if_pos hxn]
      rw [h1]
      unfold tailKey
      rw [hlen, if_neg (show ¬ x + seqs.length < seqs.length by omega),
        if_pos hxn, Nat.add_sub_cancel]
      rw [flipInput_getD F seqs x hxn, if_pos hF, rc_rc]
    · have h1 : flipNode F seqs.length x = x := by
        unfold flipNode
        rw [hmodx, if_neg hF]
      rw [h1]
      unfold tailKey
      rw [hlen, if_pos hxn, if_pos hxn]
      rw [flipInput_getD F seqs x hxn, if_neg hF]
  · have hmodx : x % seqs.length = x - seqs.length := by
      rw [Nat.mod_eq_sub_mod (by omega), Nat.mod_eq_of_lt (by omega)]
    have hxl : x - seqs.length < seqs.length := by omega
    by_cases hF : F (x - seqs.length)
    · have h1 : flipNode F seqs.length x = x - seqs.length := by
        unfold flipNode
        rw [hmodx, if_pos hF, if_neg hxn]
      rw [h1]
      unfold tailKey
      rw [hlen, if_pos hxl, if_neg hxn]
      rw [flipInput_getD F seqs (x - seqs.length) hxl, if_pos hF]
    · have h1 : flipNode F seqs.length x = x := by
        unfold flipNode
        rw [hmodx, if_neg hF]
      rw [h1]
      unfold tailKey
      rw [hlen, if_neg hxn, if_neg hxn]
      rw [flipInput_getD F seqs (x - seqs.length) hxl, if_neg hF]

theorem choiceCond_flipNode (F : Nat → Bool) (choices : List Orientation)
    (n x : Nat) (hn : choices.length = n) (hx : x < 2 * n) :
    ((flipChoices F choices).getD (flipNode F n x % n) Orientation.Forward =
        nodeOrientation n (flipNode F n x)) ↔
      (choices.getD (x % n) Orientation.Forward = nodeOrientation n x) := by
  rw [flipNode_mod F n x hx]
  have hxm : x % n < choices.length := by
    rw [hn]
    exact Nat.mod_lt x (by omega)
  rw [flipChoices_getD F choices (x % n) hxm]
  rw [nodeOrientation_flipNode F n x hx]
  by_cases hF : F (x % n)
  · rw [if_pos hF, if_pos hF]
    constructor
    · intro h
      have h2 := congrArg Orientation.flip h
      rw [orientation_flip_flip, orientation_flip_flip] at h2
      exact h2
    · intro h
      rw [h]
  · rw [if_neg hF, if_neg hF]

theorem hasLivePred_flipInput (seqs : List (List Base)) (k : Nat)
    (F : Nat → Bool) (choices : List Orientation)
    (hc : choices.length = seqs.length) (t : Nat) :
    hasLivePred (buildTotal (flipInput F seqs) k) (flipChoices F choices) t ↔
      hasLivePred (buildTotal seqs k) choices t := by
  have hlen := flipInput_length F seqs
  unfold hasLivePred
  rw [buildTotal_n, buildTotal_n, hlen]
  constructor
  · rintro ⟨v, hv, u, hu, hmod, hA, hB⟩
    obtain ⟨hvlt, hult, hkey⟩ :=
      (mem_outAt_buildTotal (flipInput F seqs) k u v).mp hu
    rw [hlen] at hvlt hult
    refine ⟨flipNode F seqs.length v,
      List.mem_range.mpr (by have := flipNode_lt F seqs.length v hvlt; omega),
      flipNode F seqs.length u, ?_, ?_, ?_, ?_⟩
    · rw [mem_outAt_buildTotal]
      refine ⟨flipNode_lt F seqs.length v hvlt,
        flipNode_lt F seqs.length u hult, ?_⟩
      have hhu : headKey seqs k (flipNode F seqs.length u) =
          headKey (flipInput F seqs) k u := by
        have h3 := headKey_flipNode F seqs k (flipNode F seqs.length u)
          (flipNode_lt F seqs.length u hult)
        rw [flipNode_flipNode F seqs.length u hult] at h3
        exact h3.symm
      have htv : tailKey seqs k (flipNode F seqs.length v) =
          tailKey (flipInput F seqs) k v := by
        have h3 := tailKey_flipNode F seqs k (flipNode F seqs.length v)
          (flipNode_lt F seqs.length v hvlt)
        rw [flipNode_flipNode F seqs.length v hvlt] at h3
        exact h3.symm
      rw [hhu, htv]
      exact hkey
    · rw [flipNode_mod F seqs.length u hult]
      exact hmod
    · have hiff := choiceCond_flipNode F choices seqs.length
        (flipNode F seqs.length v) hc (flipNode_lt F seqs.length v hvlt)
      rw [flipNode_flipNode F seqs.length v hvlt] at hiff
      exact hiff.mp hA
    · have hiff := choiceCond_flipNode F choices seqs.length
        (flipNode F seqs.length u) hc (flipNode_lt F seqs.length u hult)
      rw [flipNode_flipNode F seqs.length u hult] at hiff
      exact hiff.mp hB
  · rintro ⟨v, hv, u, hu, hmod, hA, hB⟩
    obtain ⟨hvlt, hult, hkey⟩ := (mem_outAt_buildTotal seqs k u v).mp hu
    refine ⟨flipNode F seqs.length v,
      List.mem_range.mpr (by have := flipNode_lt F seqs.length v hvlt; omega),
      flipNode F seqs.length u, ?_, ?_, ?_, ?_⟩
    · rw [mem_outAt_buildTotal, hlen]
      refine ⟨flipNode_lt F seqs.length v hvlt,
        flipNode_lt F seqs.length u hult, ?_⟩
      rw [headKey_flipNode F seqs k u hult, tailKey_flipNode F seqs k v hvlt]
      exact hkey
    · rw [flipNode_mod F seqs.length u hult]
      exact hmod
    · exact (choiceCond_flipNode F choices seqs.length v hc hvlt).mpr hA
    · exact (choiceCond_flipNode F choices seqs.length u hc hult).mpr hB

theorem rc_length (s : List Base) :
    (reverseComplement s).length = s.length := by
  unfold reverseComplement
  rw [List.length_map, List.length_reverse]

theorem seqOk_flipInput (k : Nat) (F : Nat → Bool) (seqs : List (List Base))
    (h : seqs.all (seqOk k) = true) :
    (flipInput F seqs).all (seqOk k) = true := by
  rw [List.all_eq_true] at h ⊢
  intro s hs
  unfold flipInput at hs
  rw [List.mem_map] at hs
  obtain ⟨i, hi, hsi⟩ := hs
  have hilt : i < seqs.length := List.mem_range.mp hi
  have hmem : seqs.getD i [] ∈ seqs := by
    rw [List.getD_eq_getElem?_getD, List.getElem?_eq_getElem hilt]
    exact List.getElem_mem hilt
  have hok := h _ hmem
  rw [← hsi]
  by_cases hF : F i
  · rw [if_pos hF]
    unfold seqOk at hok ⊢
    rw [rc_length]
    exact hok
  · rw [if_neg hF]
    exact hok

theorem build_all_of_some (seqs : List (List Base)) (k : Nat) (g : DBG)
    (hb : DBG.build seqs k = some g) : seqs.all (seqOk k) = true := by
  by_contra hno
  unfold DBG.build buildBordersChecked at hb
  rw [if_neg hno] at hb
  exact Option.noConfusion hb

theorem build_eq_of_all (seqs : List (List Base)) (k : Nat)
    (h : seqs.all (seqOk k) = true) :
    DBG.build seqs k = some (buildTotal seqs k) := by
  unfold DBG.build buildBordersChecked
  rw [if_pos h]

/-- C7 (amended): pre-flipping any subset `F` of a successfully built input
yields an isomorphic graph: construction of the flipped input also succeeds,
and any fixed assignment scores exactly as its `F`-flipped assignment scores
on the flipped graph. (The score achieved by running the Assignor and then
the Evaluator is not invariant; see the counterexample.) -/
theorem C7_amended_flip_invariance (seqs : List (List Base)) (k : Nat)
    (F : Nat → Bool) (choices : List Orientation) (g : DBG)
    (hb : DBG.build seqs k = some g) (hc : choices.length = seqs.length) :
    ∃ g', DBG.build (flipInput F seqs) k = some g' ∧
      evaluate choices g = evaluate (flipChoices F choices) g' := by
  have hall := build_all_of_some seqs k g hb
  have hall2 := seqOk_flipInput k F seqs hall
  refine ⟨buildTotal (flipInput F seqs) k, build_eq_of_all _ k hall2, ?_⟩
  have hg : g = buildTotal seqs k := build_eq_some seqs k g hb
  subst hg
  rw [evaluate_eq_filter, evaluate_eq_filter]
  rw [buildTotal_n, buildTotal_n, flipInput_length]
  congr 1
  apply List.filter_congr
  intro t htmem
  rw [decide_eq_decide]
  exact (hasLivePred_flipInput seqs k F choices hc t).symm

theorem C7_amended_witness :
    ∃ g', DBG.build (flipInput (fun i => decide (i = 0))
          [[Base.A, Base.A, Base.A], [Base.A, Base.A, Base.C]]) 3 = some g' ∧
        evaluate [Orientation.Forward, Orientation.Forward]
            (buildTotal [[Base.A, Base.A, Base.A], [Base.A, Base.A, Base.C]] 3) =
          evaluate (flipChoices (fun i => decide (i = 0))
              [Orientation.Forward, Orientation.Forward]) g' :=
  C7_amended_flip_invariance [[Base.A, Base.A, Base.A], [Base.A, Base.A, Base.C]]
    3 (fun i => decide (i = 0)) [Orientation.Forward, Orientation.Forward]
    (buildTotal [[Base.A, Base.A, Base.A], [Base.A, Base.A, Base.C]] 3)
    rfl rfl

end UnitigFlipper
